import Mathlib

/-!
# A verification development for the `tl` HTML parser

A shallow embedding of `src/parser.rs` (the recursive-descent tokenizer and
tree builder) and of the two lookup operations of `src/vdom.rs`, together
with theorems settling the frozen claims about them.

Conventions of the embedding:

* Bytes are `Nat` values (every byte of the UTF-8 input); byte strings are
  `List Nat`.  The `Bytes` borrow type of the Rust code is represented by
  the byte list it denotes.
* `HashMap` is represented by an association list in which an insert
  prepends its pair and a lookup takes the first match, which realises the
  overwrite-on-insert semantics of `HashMap::insert`.
* `Rc<Node>` sharing is represented by the node value itself.
* The byte cursor (`stream.rs`, not part of the given sources) is modelled
  from the spec, section 4.1: a position over an immutable buffer with
  peek / advance / slice-by-range / EOF operations.  `slice` clamps to the
  buffer, as its callers require; `slice_unchecked` is only used by the
  parser at in-bounds ranges, where `drop`/`take` agrees with the Rust
  slicing.
* The recursive-descent core is mutually recursive through the byte
  stream; the embedding makes it structurally recursive on an explicit
  fuel argument.  `Res.fuelOut` marks fuel exhaustion (an artefact of the
  embedding, shown unreachable for the canonical fuel), and `Res.panicked`
  marks the one reachable out-of-bounds index of the Rust code (in
  `parse_attributes`, when whitespace runs to the end of input the code
  reads `current_unchecked` past the buffer).
-/

namespace TL

/-- A byte string: the contents of a Rust `&[u8]` / `Bytes` value. -/
abbrev Bytes := List Nat

/-- ASCII bytes of a string literal (all inputs used here are ASCII). -/
def strBytes (s : String) : Bytes := s.data.map Char.toNat

/-- Modelled from the spec (4.1 Cursor): a position-tracking view over an
immutable byte buffer.  Mirrors `Stream` of `stream.rs`, which is not among
the given sources. -/
structure Stream where
  data : Bytes
  idx : Nat
deriving Repr, DecidableEq

namespace Stream

/-- `is_eof`: the position is at or past the end of the buffer. -/
def isEof (s : Stream) : Bool := s.data.length ≤ s.idx

/-- `current_cpy` / `current`: the byte at the position, if in bounds. -/
def currentCpy (s : Stream) : Option Nat := s.data.get? s.idx

/-- `current_unchecked` at a call site the parser has guarded with
`is_eof`; the default is never read at those sites. -/
def currentU (s : Stream) : Nat := s.data.getD s.idx 0

/-- Advance the position by `n` bytes. -/
def advance (n : Nat) (s : Stream) : Stream := { s with idx := s.idx + n }

/-- Advance the position by one byte. -/
def incr (s : Stream) : Stream := advance 1 s

/-- `next`: read the current byte and advance past it. -/
def next (s : Stream) : Option Nat × Stream :=
  match s.data.get? s.idx with
  | some c => (some c, incr s)
  | none => (none, s)

/-- `slice` (bounds-clamped): the bytes of `[a, b)` of the buffer. -/
def slice (s : Stream) (a b : Nat) : Bytes := (s.data.drop a).take (b - a)

/-- `slice_unchecked`: used only at in-bounds ranges, where it coincides
with the clamped slice. -/
def sliceU (s : Stream) (a b : Nat) : Bytes := (s.data.drop a).take (b - a)

/-- `slice_len`: `len` bytes starting at `a`, clamped. -/
def sliceLen (s : Stream) (a len : Nat) : Bytes := slice s a (a + len)

/-- `slice_from`: the bytes from `a` to the current position. -/
def sliceFrom (s : Stream) (a : Nat) : Bytes := slice s a s.idx

/-- `expect_oneof_and_skip`: consume the current byte if it is one of
`set`, else consume nothing. -/
def expectOneofSkip (set : List Nat) (s : Stream) : Option Nat × Stream :=
  match s.data.get? s.idx with
  | some c => if c ∈ set then (some c, incr s) else (none, s)
  | none => (none, s)

/-- `expect_and_skip`. -/
def expectSkip (b : Nat) (s : Stream) : Option Nat × Stream :=
  expectOneofSkip [b] s

/-- `expect_and_skip_cond`. -/
def expectSkipCond (b : Nat) (s : Stream) : Bool × Stream :=
  match expectSkip b s with
  | (some _, s') => (true, s')
  | (none, s') => (false, s')

end Stream

/-- Modelled from the spec (4.2): the identifier allow-list of
`util::is_ident` (not among the given sources) — alphanumeric bytes plus
dash and underscore, disjoint from the delimiters and the recognized
whitespace. -/
def isIdent (c : Nat) : Bool :=
  (48 ≤ c && c ≤ 57) || (97 ≤ c && c ≤ 122) || (65 ≤ c && c ≤ 90) || c == 45 || c == 95

/-- Modelled from the spec (4.2): `util::is_strict_whitespace` — exactly
space and line-feed. -/
def isStrictWhitespace (c : Nat) : Bool := c == 32 || c == 10

/-- `to_ascii_uppercase` on a byte string. -/
def toUpperBytes (b : Bytes) : Bytes :=
  b.map (fun c => if 97 ≤ c && c ≤ 122 then c - 32 else c)

/-- `VOID_TAGS` of `parser.rs`: the ASCII bytes of area, base, br, col,
embed, hr, img, input, keygen, link, meta, param, source, track, wbr
(spelling checked by `voidTags_spelling`). -/
def voidTags : List Bytes :=
  [[97, 114, 101, 97],
   [98, 97, 115, 101],
   [98, 114],
   [99, 111, 108],
   [101, 109, 98, 101, 100],
   [104, 114],
   [105, 109, 103],
   [105, 110, 112, 117, 116],
   [107, 101, 121, 103, 101, 110],
   [108, 105, 110, 107],
   [109, 101, 116, 97],
   [112, 97, 114, 97, 109],
   [115, 111, 117, 114, 99, 101],
   [116, 114, 97, 99, 107],
   [119, 98, 114]]

/-- The numeric byte lists of `voidTags` spell exactly the fifteen void
element names of `VOID_TAGS`. -/
theorem voidTags_spelling :
    voidTags = [strBytes "area", strBytes "base", strBytes "br", strBytes "col",
      strBytes "embed", strBytes "hr", strBytes "img", strBytes "input", strBytes "keygen",
      strBytes "link", strBytes "meta", strBytes "param", strBytes "source", strBytes "track",
      strBytes "wbr"] := by decide

/-- Insert into an association-list map with overwrite semantics: a
prepended pair shadows older pairs under first-match lookup, as
`HashMap::insert` replaces the value of an existing key. -/
def insertA {α : Type} (m : List (Bytes × α)) (k : Bytes) (v : α) : List (Bytes × α) :=
  (k, v) :: m

/-- First-match lookup in an association-list map. -/
def lookupA {α : Type} : List (Bytes × α) → Bytes → Option α
  | [], _ => none
  | (k, v) :: m, q => if k = q then some v else lookupA m q

/-- `Attributes` of `parser.rs`: the raw attribute map plus the two
promoted fields (the `class` field is called `cls` because `class` is a
Lean keyword). -/
structure Attrs where
  raw : List (Bytes × Option Bytes)
  id : Option Bytes
  cls : Option Bytes
deriving Repr, DecidableEq

/-- `Attributes::new`. -/
def Attrs.new : Attrs := { raw := [], id := none, cls := none }

/-- `Node` of `parser.rs`; the `tag` constructor carries the fields of
`HTMLTag` (optional name, attributes, children, raw byte span). -/
inductive Node where
  | tag (name : Option Bytes) (attrs : Attrs) (children : List Node) (raw : Bytes)
  | raw (bytes : Bytes)
  | comment (bytes : Bytes)
deriving Repr

/-- `HTMLVersion` of `parser.rs`. -/
inductive HTMLVersion where
  | html5
  | strictHTML401
  | transitionalHTML401
  | framesetHTML401
deriving Repr, DecidableEq

mutual

/-- Structural equality test for nodes (deriving cannot handle the nested
occurrence of `List Node`). -/
def beqNode : Node → Node → Bool
  | .tag n1 a1 c1 r1, .tag n2 a2 c2 r2 => n1 == n2 && a1 == a2 && beqNodeList c1 c2 && r1 == r2
  | .raw b1, .raw b2 => b1 == b2
  | .comment b1, .comment b2 => b1 == b2
  | _, _ => false

/-- Structural equality test for node lists. -/
def beqNodeList : List Node → List Node → Bool
  | [], [] => true
  | x :: xs, y :: ys => beqNode x y && beqNodeList xs ys
  | _, _ => false

end

mutual

theorem beqNode_iff : ∀ a b : Node, beqNode a b = true ↔ a = b
  | .tag n1 a1 c1 r1, .tag n2 a2 c2 r2 => by
    simp [beqNode, beqNodeList_iff c1 c2, and_assoc]
  | .tag _ _ _ _, .raw _ => by simp [beqNode]
  | .tag _ _ _ _, .comment _ => by simp [beqNode]
  | .raw _, .tag _ _ _ _ => by simp [beqNode]
  | .raw b1, .raw b2 => by simp [beqNode]
  | .raw _, .comment _ => by simp [beqNode]
  | .comment _, .tag _ _ _ _ => by simp [beqNode]
  | .comment _, .raw _ => by simp [beqNode]
  | .comment b1, .comment b2 => by simp [beqNode]

theorem beqNodeList_iff : ∀ xs ys : List Node, beqNodeList xs ys = true ↔ xs = ys
  | [], [] => by simp [beqNodeList]
  | [], _ :: _ => by simp [beqNodeList]
  | _ :: _, [] => by simp [beqNodeList]
  | x :: xs, y :: ys => by
    simp [beqNodeList, beqNode_iff x y, beqNodeList_iff xs ys]

end

instance : DecidableEq Node := fun a b => decidable_of_iff _ (beqNode_iff a b)

/-- The parser state (`Parser` of `parser.rs`): the byte stream, the
top-level node list `ast`, the id and class indices and the detected
version.  The `tags` field is modelled from the spec (3, 4.3): the arena
of all produced nodes in insertion order — `vdom.rs` scans it as
`parser.tags` but the field is absent from the given `parser.rs`; every
node produced by `parse_single` is appended to it. -/
structure PState where
  stream : Stream
  ast : List Node
  ids : List (Bytes × Node)
  classes : List (Bytes × List Node)
  version : Option HTMLVersion
  tags : List Node
deriving Repr, DecidableEq

/-- `Parser::new`. -/
def PState.init (input : Bytes) : PState :=
  { stream := { data := input, idx := 0 },
    ast := [], ids := [], classes := [], version := none, tags := [] }

namespace Stream

/-- The loop of `read_while`, structurally recursive on the remaining
length `n`; the position advances by exactly one byte per iteration, so
with `n` the distance to the end of the buffer the zero case is the
end-of-input exit of the loop. -/
def readWhileN : Nat → List Nat → Stream → Stream
  | 0, _, s => s
  | n + 1, term, s =>
    if s.isEof then s
    else if s.currentU ∈ term then readWhileN n term s.incr
    else s

/-- `read_while`: advance while the current byte is in `term`. -/
def readWhile (term : List Nat) (s : Stream) : Stream :=
  readWhileN (s.data.length - s.idx) term s

/-- `skip_whitespaces`: skip the recognized whitespace set, space and
line-feed. -/
def skipWs (s : Stream) : Stream := readWhile [32, 10] s

/-- The loop of `read_to` (span start fixed), structurally recursive on
the remaining length; the zero case is the end-of-input exit. -/
def readToN : Nat → List Nat → Nat → Stream → Bytes × Stream
  | 0, _, start, s => (s.sliceU start s.idx, s)
  | n + 1, term, start, s =>
    if s.isEof then (s.sliceU start s.idx, s)
    else if s.currentU ∈ term then (s.sliceU start s.idx, s)
    else readToN n term start s.incr

/-- `read_to`: read up to (not including) the first byte in `term`. -/
def readTo (term : List Nat) (s : Stream) : Bytes × Stream :=
  readToN (s.data.length - s.idx) term s.idx s

/-- The loop of `read_ident` (span start fixed), structurally recursive
on the remaining length; the zero case is the end-of-input exit. -/
def readIdentN : Nat → Nat → Stream → Option Bytes × Stream
  | 0, _, s => (none, s)
  | n + 1, start, s =>
    if s.isEof then (none, s)
    else if isIdent s.currentU then readIdentN n start s.incr
    else (some (s.sliceU start s.idx), s)

/-- `read_ident`: a maximal identifier run; `none` only when the scan
reaches the end of input. -/
def readIdent (s : Stream) : Option Bytes × Stream :=
  readIdentN (s.data.length - s.idx) s.idx s

theorem expectSkipCond_data (b : Nat) (s : Stream) :
    ((expectSkipCond b s).2).data = s.data := by
  unfold expectSkipCond expectSkip expectOneofSkip
  rcases h : s.data.get? s.idx with _ | c
  · simp [h]
  · by_cases hc : c = b <;> simp [h, hc, incr, advance]

theorem expectSkipCond_idx (b : Nat) (s : Stream) :
    s.idx ≤ ((expectSkipCond b s).2).idx := by
  unfold expectSkipCond expectSkip expectOneofSkip
  rcases h : s.data.get? s.idx with _ | c
  · simp [h]
  · by_cases hc : c = b <;> simp [h, hc, incr, advance]

/-- The loop of `skip_comment` (span start fixed), structurally recursive
on a counter that is at least the remaining length (each iteration
advances the position by at least one byte, so the invariant is kept);
the zero case is then only reached at end of input, the loop exit. -/
def skipCommentN : Nat → Nat → Stream → Option Bytes × Stream
  | 0, _, s => (none, s)
  | n + 1, start, s =>
    if s.isEof then (none, s)
    else if s.sliceLen s.idx 2 = [45, 45] then
      match (s.advance 2).expectSkipCond 62 with
      | (true, s2) => (some (s2.sliceU start s2.idx), s2)
      | (false, s2) => skipCommentN n start s2.incr
    else skipCommentN n start s.incr

/-- `skip_comment`: scan for `--` immediately followed by `>`; on success
return the bytes from the start of the scan through that `>`. -/
def skipComment (s : Stream) : Option Bytes × Stream :=
  skipCommentN (s.data.length - s.idx) s.idx s

theorem readWhileN_facts : ∀ (n : Nat) (t : List Nat) (s : Stream),
    (readWhileN n t s).data = s.data ∧ s.idx ≤ (readWhileN n t s).idx := by
  intro n
  induction n with
  | zero => intro t s; simp [readWhileN]
  | succ n ih =>
    intro t s
    unfold readWhileN
    by_cases h : s.isEof = true <;> simp [h]
    by_cases hc : s.currentU ∈ t <;> simp [hc, incr, advance]
    obtain ⟨hd, hi⟩ := ih t s.incr
    simp [incr, advance] at hd hi ⊢
    exact ⟨hd, by omega⟩

theorem skipWs_data (s : Stream) : s.skipWs.data = s.data :=
  (readWhileN_facts _ _ s).1

theorem skipWs_idx (s : Stream) : s.idx ≤ s.skipWs.idx :=
  (readWhileN_facts _ _ s).2

theorem readToN_facts : ∀ (n : Nat) (t : List Nat) (start : Nat) (s : Stream),
    ((readToN n t start s).2).data = s.data ∧ s.idx ≤ ((readToN n t start s).2).idx := by
  intro n
  induction n with
  | zero => intro t start s; simp [readToN]
  | succ n ih =>
    intro t start s
    unfold readToN
    by_cases h : s.isEof = true <;> simp [h]
    by_cases hc : s.currentU ∈ t <;> simp [hc, incr, advance]
    obtain ⟨hd, hi⟩ := ih t start s.incr
    simp [incr, advance] at hd hi ⊢
    exact ⟨hd, by omega⟩

theorem readTo_data (t : List Nat) (s : Stream) : ((readTo t s).2).data = s.data :=
  (readToN_facts _ t s.idx s).1

theorem readTo_idx (t : List Nat) (s : Stream) : s.idx ≤ ((readTo t s).2).idx :=
  (readToN_facts _ t s.idx s).2

theorem readIdentN_facts : ∀ (n start : Nat) (s : Stream),
    ((readIdentN n start s).2).data = s.data ∧ s.idx ≤ ((readIdentN n start s).2).idx := by
  intro n
  induction n with
  | zero => intro start s; simp [readIdentN]
  | succ n ih =>
    intro start s
    unfold readIdentN
    by_cases h : s.isEof = true <;> simp [h]
    by_cases hc : isIdent s.currentU <;> simp [hc, incr, advance]
    obtain ⟨hd, hi⟩ := ih start s.incr
    simp [incr, advance] at hd hi ⊢
    exact ⟨hd, by omega⟩

theorem readIdent_data (s : Stream) : ((readIdent s).2).data = s.data :=
  (readIdentN_facts _ s.idx s).1

theorem readIdent_idx (s : Stream) : s.idx ≤ ((readIdent s).2).idx :=
  (readIdentN_facts _ s.idx s).2

theorem skipCommentN_facts : ∀ (n start : Nat) (s : Stream),
    ((skipCommentN n start s).2).data = s.data ∧ s.idx ≤ ((skipCommentN n start s).2).idx := by
  intro n
  induction n with
  | zero => intro start s; simp [skipCommentN]
  | succ n ih =>
    intro start s
    rcases hE : expectSkipCond 62 (s.advance 2) with ⟨b, e⟩
    have hd2 : e.data = s.data := by
      have h := expectSkipCond_data 62 (s.advance 2); rw [hE] at h; simpa [advance] using h
    have hi2 : s.idx + 2 ≤ e.idx := by
      have h := expectSkipCond_idx 62 (s.advance 2); rw [hE] at h; simpa [advance] using h
    unfold skipCommentN
    by_cases h : s.isEof = true <;> simp [h]
    by_cases hc : s.sliceLen s.idx 2 = [45, 45] <;> simp [hc, hE]
    · cases b <;> simp
      · obtain ⟨hd, hi⟩ := ih start e.incr
        simp [incr, advance] at hd hi ⊢
        rw [hd2] at hd hi
        rw [hd2]
        exact ⟨hd, by omega⟩
      · exact ⟨hd2, by omega⟩
    · obtain ⟨hd, hi⟩ := ih start s.incr
      simp [incr, advance] at hd hi ⊢
      exact ⟨hd, by omega⟩

theorem skipComment_data (s : Stream) : ((skipComment s).2).data = s.data :=
  (skipCommentN_facts _ s.idx s).1

theorem skipComment_idx (s : Stream) : s.idx ≤ ((skipComment s).2).idx :=
  (skipCommentN_facts _ s.idx s).2

theorem expectOneofSkip_data (set : List Nat) (s : Stream) :
    ((expectOneofSkip set s).2).data = s.data := by
  unfold expectOneofSkip
  rcases h : s.data.get? s.idx with _ | c
  · simp [h]
  · by_cases hc : c ∈ set <;> simp [h, hc, incr, advance]

theorem expectOneofSkip_idx (set : List Nat) (s : Stream) :
    s.idx ≤ ((expectOneofSkip set s).2).idx := by
  unfold expectOneofSkip
  rcases h : s.data.get? s.idx with _ | c
  · simp [h]
  · by_cases hc : c ∈ set <;> simp [h, hc, incr, advance]

theorem expectSkip_data (b : Nat) (s : Stream) : ((expectSkip b s).2).data = s.data :=
  expectOneofSkip_data [b] s

theorem expectSkip_idx (b : Nat) (s : Stream) : s.idx ≤ ((expectSkip b s).2).idx :=
  expectOneofSkip_idx [b] s

end Stream

/-- `ID_ATTR` of `parser.rs`: the bytes of `id`. -/
def idAttr : Bytes := [105, 100]

/-- `CLASS_ATTR` of `parser.rs`: the bytes of `class`. -/
def classAttr : Bytes := [99, 108, 97, 115, 115]

/-- The bytes of `DOCTYPE`. -/
def doctypeBytes : Bytes := [68, 79, 67, 84, 89, 80, 69]

/-- The bytes of `HTML`. -/
def htmlBytes : Bytes := [72, 84, 77, 76]

open Stream in
/-- `parse_attribute` of `parser.rs`: an identifier, optionally `=` and a
quoted value whose quote must be `"` or a single quote. -/
def parseAttribute (s : Stream) : Option (Bytes × Option Bytes) × Stream :=
  match readIdent s with
  | (none, s1) => (none, s1)
  | (some name, s1) =>
    let s2 := skipWs s1
    match expectSkipCond 61 s2 with
    | (false, s3) => (some (name, none), s3)
    | (true, s3) =>
      let s4 := skipWs s3
      match expectOneofSkip [34, 39] s4 with
      | (none, s5) => (none, s5)
      | (some q, s5) =>
        match readTo [q] s5 with
        | (v, s6) => (some (name, some v), s6)

open Stream in
theorem parseAttribute_data (s : Stream) : ((parseAttribute s).2).data = s.data := by
  unfold parseAttribute
  rcases h1 : readIdent s with ⟨_ | name, s1⟩
  · simpa using congrArg (fun p => p.2.data) h1 ▸ readIdent_data s
  · have hd1 : s1.data = s.data := by
      have := readIdent_data s; rw [h1] at this; exact this
    rcases h2 : expectSkipCond 61 (skipWs s1) with ⟨b, s3⟩
    have hd3 : s3.data = s1.data := by
      have := expectSkipCond_data 61 (skipWs s1); rw [h2] at this
      rw [this, skipWs_data]
    cases b
    · simp [h1, h2, hd3, hd1]
    · rcases h3 : expectOneofSkip [34, 39] (skipWs s3) with ⟨_ | q, s5⟩
      · have : s5.data = s3.data := by
          have := expectOneofSkip_data [34, 39] (skipWs s3); rw [h3] at this
          rw [this, skipWs_data]
        simp [h1, h2, h3, this, hd3, hd1]
      · have hd5 : s5.data = s3.data := by
          have := expectOneofSkip_data [34, 39] (skipWs s3); rw [h3] at this
          rw [this, skipWs_data]
        have hd6 : ((readTo [q] s5).2).data = s5.data := readTo_data [q] s5
        simp [h1, h2, h3, hd6, hd5, hd3, hd1]

open Stream in
theorem parseAttribute_idx (s : Stream) : s.idx ≤ ((parseAttribute s).2).idx := by
  unfold parseAttribute
  rcases h1 : readIdent s with ⟨_ | name, s1⟩
  · have := readIdent_idx s; rw [h1] at this; simpa using this
  · have hi1 : s.idx ≤ s1.idx := by
      have := readIdent_idx s; rw [h1] at this; exact this
    rcases h2 : expectSkipCond 61 (skipWs s1) with ⟨b, s3⟩
    have hi3 : s1.idx ≤ s3.idx := by
      have h := expectSkipCond_idx 61 (skipWs s1); rw [h2] at h
      exact le_trans (skipWs_idx s1) h
    cases b
    · simp [h1, h2]; omega
    · rcases h3 : expectOneofSkip [34, 39] (skipWs s3) with ⟨_ | q, s5⟩
      · have hi5 : s3.idx ≤ s5.idx := by
          have h := expectOneofSkip_idx [34, 39] (skipWs s3); rw [h3] at h
          exact le_trans (skipWs_idx s3) h
        simp [h1, h2, h3]; omega
      · have hi5 : s3.idx ≤ s5.idx := by
          have h := expectOneofSkip_idx [34, 39] (skipWs s3); rw [h3] at h
          exact le_trans (skipWs_idx s3) h
        have hi6 : s5.idx ≤ ((readTo [q] s5).2).idx := readTo_idx [q] s5
        simp [h1, h2, h3]; omega

open Stream in
/-- The loop of `parse_attributes` of `parser.rs`, structurally recursive
on a counter that is at least the remaining length (each iteration
advances at least one byte: the `idx += 1` after the attribute), so the
zero case is only reached at end of input, the loop exit.  The result is
`none` exactly when the Rust code would panic: after skipping whitespace
the loop reads `current_unchecked` without re-checking `is_eof`, so
whitespace running to the end of input indexes past the buffer. -/
def parseAttributesAuxN : Nat → Attrs → Stream → Option (Attrs × Stream)
  | 0, attrs, s => some (attrs, s)
  | n + 1, attrs, s =>
    if s.isEof then some (attrs, s)
    else
      match skipWs s with
      | ⟨d1, i1⟩ =>
        match d1.get? i1 with
        | none => none
        | some cur =>
          if cur ∈ ([47, 62] : List Nat) then some (attrs, ⟨d1, i1⟩)
          else
            match parseAttribute ⟨d1, i1⟩ with
            | (none, s2) => parseAttributesAuxN n attrs s2.incr
            | (some (k, v), s2) =>
              match (if k = idAttr then { attrs with id := v }
                     else if k = classAttr then { attrs with cls := v }
                     else attrs) with
              | ⟨raw1, id1, cls1⟩ =>
                parseAttributesAuxN n ⟨insertA raw1 k v, id1, cls1⟩ s2.incr

open Stream in
/-- `parse_attributes` of `parser.rs`. -/
def parseAttributes (s : Stream) : Option (Attrs × Stream) :=
  parseAttributesAuxN (s.data.length - s.idx) Attrs.new s

/-- The loop of `process_class` of `parser.rs`, returning the list of
emitted class tokens in order: at each whitespace byte, and at the final
byte, the bytes from the previous boundary up to the cut (the cut sits
after the final byte, at it for a whitespace byte elsewhere) are emitted
if non-empty.  Structurally recursive on the remaining length (the
position advances by exactly one per iteration); the zero case is the
end-of-value exit of the loop. -/
def classTokensAuxN : Nat → Bytes → Nat → Nat → List Bytes
  | 0, _, _, _ => []
  | n + 1, raw, last, idx =>
    if raw.length ≤ idx then []
    else
      let cur := raw.getD idx 0
      let isLast := idx == raw.length - 1
      if isStrictWhitespace cur || isLast then
        let cut := if isLast then idx + 1 else idx
        let tok := (raw.drop last).take (cut - last)
        let rest := classTokensAuxN n raw (cut + 1) (idx + 1)
        if 0 < tok.length then tok :: rest else rest
      else classTokensAuxN n raw last (idx + 1)

/-- The token list `process_class` emits for a raw class value. -/
def classTokens (raw : Bytes) : List Bytes := classTokensAuxN raw.length raw 0 0

/-- `entry(..).or_insert_with(Vec::new).push(..)` on the class index. -/
def pushEntry (m : List (Bytes × List Node)) (k : Bytes) (n : Node) : List (Bytes × List Node) :=
  insertA m k (((lookupA m k).getD []) ++ [n])

/-- `process_class` of `parser.rs`: append the element to the class-index
entry of every emitted token, in emission order. -/
def processClassFold (classes : List (Bytes × List Node)) (c : Bytes) (n : Node) :
    List (Bytes × List Node) :=
  (classTokens c).foldl (fun m tok => pushEntry m tok n) classes

/-- The outcome of a fueled run: `fuelOut` is the fuel-exhaustion artefact
of the embedding, `panicked` the out-of-bounds index of
`parse_attributes`, and `ok` a finished computation (which for the parsing
functions still carries `none` for a failed element parse, as in the
Rust `Option` results). -/
inductive Res (α : Type) where
  | fuelOut
  | panicked
  | ok (a : α)
deriving Repr, DecidableEq

open Stream

mutual

/-- `parse_single` of `parser.rs`: skip whitespace, then parse one tag
(updating the id and class indices and — modelled from the spec — the
arena `tags`) or one raw-text run. -/
def parse_single (fuel : Nat) (st : PState) : Res (Option Node × PState) :=
  match fuel with
  | 0 => .fuelOut
  | f + 1 =>
    match skipWs st.stream with
    | ⟨d1, i1⟩ =>
      match d1.get? i1 with
      | none => .ok (none, { st with stream := ⟨d1, i1⟩ })
      | some ch =>
        if ch = 60 then
          match parse_tag f true { st with stream := ⟨d1, i1⟩ } with
          | .fuelOut => .fuelOut
          | .panicked => .panicked
          | .ok (none, st') => .ok (none, st')
          | .ok (some node, st') =>
            match st' with
            | ⟨sstr, sast, sids, scls, sver, stags⟩ =>
              match node with
              | .tag _ nattrs _ _ =>
                let ids2 :=
                  match nattrs.id with
                  | some i => insertA sids i node
                  | none => sids
                let cls2 :=
                  match nattrs.cls with
                  | some c => processClassFold scls c node
                  | none => scls
                .ok (some node, ⟨sstr, sast, ids2, cls2, sver, stags ++ [node]⟩)
              | _ => .ok (some node, ⟨sstr, sast, sids, scls, sver, stags ++ [node]⟩)
        else
          match readTo [60] ⟨d1, i1⟩ with
          | (txt, s2) =>
            .ok (some (Node.raw txt),
                 { st with stream := s2, tags := st.tags ++ [Node.raw txt] })

/-- `parse_tag` of `parser.rs` up to the end of attribute parsing (lines
289-339); the rest of the function continues in `parse_tag_rest`. -/
def parse_tag (fuel : Nat) (skipCurrent : Bool) (st : PState) : Res (Option Node × PState) :=
  match fuel with
  | 0 => .fuelOut
  | f + 1 =>
    match st.stream with
    | ⟨d0, start⟩ =>
      match (if skipCurrent then next ⟨d0, start⟩ else (some 0, ⟨d0, start⟩)) with
      | (none, s0) => .ok (none, { st with stream := s0 })
      | (some _, s0) =>
        match expectSkipCond 33 s0 with
        | (md, s1) =>
          if md then
            if slice s1 s1.idx (s1.idx + 2) = [45, 45] then
              match skipComment (advance 2 s1) with
              | (none, s3) => .ok (none, { st with stream := s3 })
              | (some c, s3) => .ok (some (.comment c), { st with stream := s3 })
            else
              match readIdent s1 with
              | (none, s2) => .ok (none, { st with stream := s2 })
              | (some nm, s2) =>
                if toUpperBytes nm = doctypeBytes then
                  match readIdent (skipWs s2) with
                  | (iopt, s4) =>
                    if (match iopt with
                        | some i => toUpperBytes i == htmlBytes
                        | none => false) then
                      match expectSkip 62 (skipWs s4) with
                      | (_, s6) => .ok (none, { st with stream := s6, version := some .html5 })
                    else .ok (none, { st with stream := s4 })
                else .ok (none, { st with stream := s2 })
          else
            match readIdent s1 with
            | (none, s2) => .ok (none, { st with stream := s2 })
            | (some name, s2) =>
              match parseAttributes s2 with
              | none => .panicked
              | some (attrs, s3) => parse_tag_rest f name attrs start { st with stream := s3 }

/-- `parse_tag` of `parser.rs` from the self-closing check to the end
(lines 341-411): the self-closing and void early returns, else the child
loop. -/
def parse_tag_rest (fuel : Nat) (name : Bytes) (attrs : Attrs) (start : Nat) (st : PState) :
    Res (Option Node × PState) :=
  match fuel with
  | 0 => .fuelOut
  | f + 1 =>
    match expectSkipCond 47 st.stream with
    | (isSC, s1) =>
      if isSC then
        match expectSkip 62 (skipWs s1) with
        | (none, s3) => .ok (none, { st with stream := s3 })
        | (some _, s3) =>
          .ok (some (.tag (some name) attrs [] (sliceFrom s3 start)), { st with stream := s3 })
      else
        match expectSkip 62 (skipWs s1) with
        | (none, s3) => .ok (none, { st with stream := s3 })
        | (some _, s3) =>
          if name ∈ voidTags then
            .ok (some (.tag (some name) attrs [] (sliceFrom s3 start)), { st with stream := s3 })
          else parse_children f name attrs start [] { st with stream := s3 }

/-- The child loop of `parse_tag` (lines 378-410): parse child nodes until
the literal `</`, then require the end-tag name to be byte-equal to the
opening name (a mismatch aborts with no node), consume an optional `>`,
and emit the tag with the span from `start` to the current position. -/
def parse_children (fuel : Nat) (name : Bytes) (attrs : Attrs) (start : Nat)
    (children : List Node) (st : PState) : Res (Option Node × PState) :=
  match fuel with
  | 0 => .fuelOut
  | f + 1 =>
    if st.stream.isEof then
      .ok (some (.tag (some name) attrs children (sliceFrom st.stream start)), st)
    else
      match skipWs st.stream with
      | ⟨d1, i1⟩ =>
        if slice ⟨d1, i1⟩ i1 (i1 + 2) = [60, 47] then
          match readIdent (advance 2 ⟨d1, i1⟩) with
          | (none, s3) => .ok (none, { st with stream := s3 })
          | (some ident, s3) =>
            if ident ≠ name then .ok (none, { st with stream := s3 })
            else
              match expectSkip 62 s3 with
              | (_, s4) =>
                .ok (some (.tag (some name) attrs children (sliceFrom s4 start)),
                     { st with stream := s4 })
        else
          match parse_single f { st with stream := ⟨d1, i1⟩ } with
          | .fuelOut => .fuelOut
          | .panicked => .panicked
          | .ok (none, st') => .ok (none, st')
          | .ok (some n, st') => parse_children f name attrs start (children ++ [n]) st'

end

/-- The driver loop of `Parser::parse` (lines 477-484): parse single nodes
until end of input, appending every produced node to the top-level `ast`. -/
def parse_loop (fuel : Nat) (st : PState) : Res PState :=
  match fuel with
  | 0 => .fuelOut
  | f + 1 =>
    if st.stream.isEof then .ok st
    else
      match parse_single f st with
      | .fuelOut => .fuelOut
      | .panicked => .panicked
      | .ok (none, st') => parse_loop f st'
      | .ok (some n, st') => parse_loop f { st' with ast := st'.ast ++ [n] }

/-- The canonical fuel: enough for any input of this length (proved with
the termination claim). -/
def parseFuel (input : Bytes) : Nat := 4 * input.length + 8

/-- Parse a whole input: `Parser::new(input).parse()`. -/
def parseDoc (input : Bytes) : Res PState :=
  parse_loop (parseFuel input) (PState.init input)

/-- The finished state of a parse, when the run neither ran out of fuel
(never happens at the canonical fuel) nor hit the attribute-loop panic. -/
def getOk : Res PState → Option PState
  | .ok st => some st
  | _ => none

/-- `HTMLTag` name of a node, `none` for text and comment nodes. -/
def nodeName : Node → Option Bytes
  | .tag n _ _ _ => n
  | _ => none

/-- The raw byte span of a node. -/
def nodeRaw : Node → Bytes
  | .tag _ _ _ r => r
  | .raw b => b
  | .comment b => b

/-- Concatenation of the raw spans of a node list, in order. -/
def concatRaws (l : List Node) : Bytes := (l.map nodeRaw).flatten

/-- `get_element_by_id` of `vdom.rs` on the id-tracking path: a lookup in
the id index (`parser.ids.get(&bytes)`); the handle it returns is
represented by the node it resolves to. -/
def getByIdIndexed (st : PState) (idv : Bytes) : Option Node :=
  lookupA st.ids idv

/-- The per-node test of the `get_element_by_id` fallback scan: the node
is a tag whose id attribute equals the query. -/
def tagHasId (idv : Bytes) (n : Node) : Bool :=
  match n with
  | .tag _ a _ _ => a.id == some idv
  | _ => false

/-- `get_element_by_id` of `vdom.rs` on the fallback path: a linear scan
over all nodes of the arena, returning the first whose tag has the id
attribute equal to the query (`self.nodes().iter().enumerate().find(..)`);
the handle is represented by the node it resolves to. -/
def getByIdScan (st : PState) (idv : Bytes) : Option Node :=
  st.tags.find? (tagHasId idv)

/-- Modelled from the spec (4.4): the class-token membership test of the
`get_elements_by_class_name` fallback (`Attributes::is_class_member` is
not among the given sources): the query is one of the tokens of the
node's class value. -/
def isClassMember (a : Attrs) (token : Bytes) : Bool :=
  match a.cls with
  | some c => (classTokens c).contains token
  | none => false

/-- `get_elements_by_class_name` of `vdom.rs` on the class-tracking path:
the class-index entry of the token, empty when absent. -/
def getByClassIndexed (st : PState) (token : Bytes) : List Node :=
  (lookupA st.classes token).getD []

/-- `get_elements_by_class_name` of `vdom.rs` on the fallback path: the
arena filtered by class-token membership, one entry per matching node. -/
def getByClassScan (st : PState) (token : Bytes) : List Node :=
  st.tags.filter (fun n =>
    match n with
    | .tag _ a _ _ => isClassMember a token
    | _ => false)

/-- The id-index bookkeeping step of `parse_single` for one produced
node: an overwriting insert when the node is a tag carrying an id. -/
def idStep (m : List (Bytes × Node)) (n : Node) : List (Bytes × Node) :=
  match n with
  | .tag _ a _ _ =>
    match a.id with
    | some i => insertA m i n
    | none => m
  | _ => m

/-- The class-index bookkeeping step of `parse_single` for one produced
node. -/
def classStep (m : List (Bytes × List Node)) (n : Node) : List (Bytes × List Node) :=
  match n with
  | .tag _ a _ _ =>
    match a.cls with
    | some c => processClassFold m c n
    | none => m
  | _ => m

/-- The id index an arena determines: the fold of the bookkeeping step
over the arena in insertion order. -/
def buildIds (tags : List Node) : List (Bytes × Node) :=
  tags.foldl idStep []

/-- The class index an arena determines: the fold of the bookkeeping step
over the arena in insertion order. -/
def buildClasses (tags : List Node) : List (Bytes × List Node) :=
  tags.foldl classStep []

mutual

/-- Whether `target` occurs in the tree rooted at `n` (the node itself or
any descendant). -/
def nodeContains (n target : Node) : Bool :=
  beqNode n target ||
    (match n with
     | .tag _ _ ch _ => listContains ch target
     | _ => false)

/-- Whether `target` occurs in one of the trees of `l`. -/
def listContains (l : List Node) (target : Node) : Bool :=
  match l with
  | [] => false
  | x :: xs => nodeContains x target || listContains xs target

end

mutual

/-- Document order (spec glossary): the nodes of a tree in the
left-to-right order their opening markup is encountered — each node
before its children. -/
def preorderNode (n : Node) : List Node :=
  n ::
    (match n with
     | .tag _ _ ch _ => preorderList ch
     | _ => [])

/-- Document order of a forest. -/
def preorderList (l : List Node) : List Node :=
  match l with
  | [] => []
  | x :: xs => preorderNode x ++ preorderList xs

end

/-- The element list the claim expects from a class lookup: the elements
of the document tree in document order whose class value contains the
token, one entry per occurrence of the token in the class value. -/
def claimClassList (st : PState) (token : Bytes) : List Node :=
  (preorderList st.ast).foldr (fun n acc =>
    match n with
    | .tag _ a _ _ =>
      match a.cls with
      | some c => (List.replicate ((classTokens c).count token) n) ++ acc
      | none => acc
    | _ => acc) []

/-! ## `inner_text` (`parser.rs` lines 74-105 and 119-128)

The decode of a byte span to text (`Bytes::as_utf8_str`, lossy UTF-8, not
among the given sources) enters as an explicit parameter `dec`; the
recursion structure is what the source fixes. -/

mutual

/-- `HTMLTag::inner_text`: empty for no children; for a single child the
direct case split; for more, a string built by pushing each child's text
in order (comments push nothing). -/
def innerTextTag (dec : Bytes → List Char) (children : List Node) : List Char :=
  match children with
  | [] => []
  | [first] =>
    (match first with
     | .tag _ _ ch _ => innerTextTag dec ch
     | .raw e => dec e
     | .comment _ => [])
  | first :: rest => innerTextAcc dec (innerTextNode dec first) rest

/-- The accumulation loop of `HTMLTag::inner_text` over the children
after the first. -/
def innerTextAcc (dec : Bytes → List Char) : List Char → List Node → List Char
  | s, [] => s
  | s, n :: rest =>
    innerTextAcc dec
      (match n with
       | .tag _ _ ch _ => s ++ innerTextTag dec ch
       | .raw e => s ++ dec e
       | .comment _ => s) rest

/-- `Node::inner_text`. -/
def innerTextNode (dec : Bytes → List Char) (n : Node) : List Char :=
  match n with
  | .comment _ => []
  | .raw r => dec r
  | .tag _ _ ch _ => innerTextTag dec ch

end

mutual

/-- The recursion the claim describes for a node: empty for a comment,
the decoded span for raw text, the concatenation of the children for a
tag. -/
def innerTextSpecNode (dec : Bytes → List Char) (n : Node) : List Char :=
  match n with
  | .comment _ => []
  | .raw r => dec r
  | .tag _ _ ch _ => innerTextSpecList dec ch

/-- The concatenation of the claimed inner texts of a node list. -/
def innerTextSpecList (dec : Bytes → List Char) (l : List Node) : List Char :=
  match l with
  | [] => []
  | n :: rest => innerTextSpecNode dec n ++ innerTextSpecList dec rest

end

mutual

theorem innerTextTag_eq (dec : Bytes → List Char) : ∀ l : List Node,
    innerTextTag dec l = innerTextSpecList dec l
  | [] => by
    show ([] : List Char) = innerTextSpecList dec []
    simp [innerTextSpecList]
  | [.tag nm a ch r] => by
    show innerTextTag dec ch = innerTextSpecList dec [.tag nm a ch r]
    simp [innerTextSpecList, innerTextSpecNode, innerTextTag_eq dec ch]
  | [.raw e] => by
    show dec e = innerTextSpecList dec [.raw e]
    simp [innerTextSpecList, innerTextSpecNode]
  | [.comment e] => by
    show ([] : List Char) = innerTextSpecList dec [.comment e]
    simp [innerTextSpecList, innerTextSpecNode]
  | first :: second :: rest => by
    show innerTextAcc dec (innerTextNode dec first) (second :: rest)
        = innerTextSpecList dec (first :: second :: rest)
    rw [innerTextAcc_eq dec (innerTextNode dec first) (second :: rest),
      innerTextNode_eq dec first]
    simp [innerTextSpecList]

theorem innerTextAcc_eq (dec : Bytes → List Char) : ∀ (s : List Char) (l : List Node),
    innerTextAcc dec s l = s ++ innerTextSpecList dec l
  | s, [] => by
    show s = s ++ innerTextSpecList dec []
    simp [innerTextSpecList]
  | s, .tag nm a ch r :: rest => by
    show innerTextAcc dec (s ++ innerTextTag dec ch) rest
        = s ++ innerTextSpecList dec (.tag nm a ch r :: rest)
    rw [innerTextAcc_eq dec _ rest, innerTextTag_eq dec ch]
    simp [innerTextSpecList, innerTextSpecNode]
  | s, .raw e :: rest => by
    show innerTextAcc dec (s ++ dec e) rest = s ++ innerTextSpecList dec (.raw e :: rest)
    rw [innerTextAcc_eq dec _ rest]
    simp [innerTextSpecList, innerTextSpecNode]
  | s, .comment e :: rest => by
    show innerTextAcc dec s rest = s ++ innerTextSpecList dec (.comment e :: rest)
    rw [innerTextAcc_eq dec _ rest]
    simp [innerTextSpecList, innerTextSpecNode]

theorem innerTextNode_eq (dec : Bytes → List Char) : ∀ n : Node,
    innerTextNode dec n = innerTextSpecNode dec n
  | .comment e => by simp [innerTextNode, innerTextSpecNode]
  | .raw r => by simp [innerTextNode, innerTextSpecNode]
  | .tag nm a ch r => by
    show innerTextTag dec ch = innerTextSpecNode dec (.tag nm a ch r)
    rw [innerTextTag_eq dec ch]
    simp [innerTextSpecNode]

end

/-- Claim C10: for every node, `inner_text` equals the recursion the
claim describes — the empty string for a Comment node, the decoded byte
span for a Raw text node, and for a Tag node the concatenation of the
children's inner texts in child order (empty when there are no children,
Comment children contributing nothing), for any decode `dec` of byte
spans to text. -/
theorem c10_inner_text_recursion (dec : Bytes → List Char) (n : Node) :
    innerTextNode dec n = innerTextSpecNode dec n :=
  innerTextNode_eq dec n

/-! ## Claim C8: class tokenization -/

/-- The tokenization `process_class` actually performs, in direct
recursive form: whitespace bytes occurring before the final byte
separate tokens; the final token always extends through the final byte
(so it can end in one whitespace byte); empty tokens are dropped. -/
def specSplitGo (pend : Bytes) : Bytes → List Bytes
  | [] => []
  | c :: rest =>
    if rest = [] then [pend ++ [c]]
    else if isStrictWhitespace c then
      if pend.isEmpty then specSplitGo [] rest else pend :: specSplitGo [] rest
    else specSplitGo (pend ++ [c]) rest

/-- The token list of a raw class value in direct recursive form. -/
def specSplit (raw : Bytes) : List Bytes := specSplitGo [] raw

theorem classTokensAuxN_spec : ∀ (n : Nat) (raw : Bytes) (last idx : Nat),
    n = raw.length - idx → (last ≤ idx ∨ raw.length ≤ idx) →
    classTokensAuxN n raw last idx
      = specSplitGo ((raw.drop last).take (idx - last)) (raw.drop idx) := by
  intro n
  induction n with
  | zero =>
    intro raw last idx hn hl
    have hle : raw.length ≤ idx := by omega
    rw [List.drop_eq_nil_iff.2 hle]
    simp [classTokensAuxN, specSplitGo]
  | succ n ih =>
    intro raw last idx hn hl
    have hidx : idx < raw.length := by omega
    have hlast : last ≤ idx := by omega
    have hdrop : raw.drop idx = raw[idx] :: raw.drop (idx + 1) :=
      List.drop_eq_getElem_cons hidx
    have hcur : raw.getD idx 0 = raw[idx] := by
      rw [List.getD_eq_getElem?_getD, List.getElem?_eq_getElem hidx]
      rfl
    have htok : (raw.drop last).take (idx + 1 - last)
        = (raw.drop last).take (idx - last) ++ [raw[idx]] := by
      have h1 : idx + 1 - last = (idx - last) + 1 := by omega
      rw [h1, List.take_succ, List.getElem?_drop]
      have h2 : last + (idx - last) = idx := by omega
      rw [h2, List.getElem?_eq_getElem hidx]
      rfl
    unfold classTokensAuxN
    rw [if_neg (by omega), hcur, hdrop]
    by_cases hL : idx = raw.length - 1
    · -- the final byte: the cut sits after it, the token is always emitted
      have hrest : raw.drop (idx + 1) = [] := List.drop_eq_nil_iff.2 (by omega)
      have hbeq : (idx == raw.length - 1) = true := by simp [hL]
      rw [hbeq]
      simp only [Bool.or_true, if_true, hrest]
      have hrec := ih raw (idx + 1 + 1) (idx + 1) (by omega) (Or.inr (by omega))
      rw [hrest] at hrec
      simp only [specSplitGo] at hrec
      simp only [specSplitGo, hrec, if_pos rfl, htok]
      have hne : 0 < ((raw.drop last).take (idx + 1 - last)).length := by
        rw [List.length_take, List.length_drop]
        simp
        omega
      rw [if_pos (by rw [htok] at hne; exact hne)]
      simp
    · -- not the final byte
      have hbeq : (idx == raw.length - 1) = false := by simp [hL]
      have hrest : ¬(raw.drop (idx + 1) = []) := by
        rw [List.drop_eq_nil_iff]; omega
      rw [hbeq]
      simp only [Bool.or_false]
      by_cases hw : isStrictWhitespace raw[idx] = true
      · -- a separating whitespace byte
        rw [if_pos hw]
        simp only [if_false, Bool.false_eq_true, ite_false]
        have hrec := ih raw (idx + 1) (idx + 1) (by omega) (Or.inl le_rfl)
        simp only [Nat.sub_self, List.take_zero] at hrec
        rw [specSplitGo, if_neg hrest, if_pos hw]
        by_cases hp : ((raw.drop last).take (idx - last)).isEmpty = true
        · rw [if_pos hp]
          have : ((raw.drop last).take (idx - last)).length = 0 := by
            rwa [List.isEmpty_iff_length_eq_zero] at hp
          rw [if_neg (by omega), hrec]
        · rw [if_neg hp]
          have : ¬((raw.drop last).take (idx - last)).length = 0 := by
            rw [← List.isEmpty_iff_length_eq_zero]
            simp [hp]
          rw [if_pos (by omega), hrec]
      · -- an ordinary byte: it joins the pending token
        rw [if_neg hw]
        have hrec := ih raw last (idx + 1) (by omega) (Or.inl (by omega))
        rw [hrec, specSplitGo, if_neg hrest, if_neg hw, htok]

theorem classTokens_eq_specSplit (raw : Bytes) : classTokens raw = specSplit raw := by
  have h := classTokensAuxN_spec raw.length raw 0 0 (by omega) (Or.inl le_rfl)
  simpa [classTokens, specSplit] using h

theorem specSplitGo_ne_nil : ∀ (pend : Bytes) (l : Bytes) (t : Bytes),
    t ∈ specSplitGo pend l → t ≠ []
  | pend, [], t => by simp [specSplitGo]
  | pend, c :: rest, t => by
    unfold specSplitGo
    by_cases h0 : rest = []
    · rw [if_pos h0]
      intro h
      simp only [List.mem_singleton] at h
      subst h
      simp
    · rw [if_neg h0]
      by_cases hw : isStrictWhitespace c = true
      · rw [if_pos hw]
        by_cases hp : pend.isEmpty = true
        · rw [if_pos hp]
          exact specSplitGo_ne_nil [] rest t
        · rw [if_neg hp]
          intro h
          rcases List.mem_cons.1 h with h | h
          · subst h
            intro hE
            rw [hE] at hp
            simp at hp
          · exact specSplitGo_ne_nil [] rest t h
      · rw [if_neg hw]
        exact specSplitGo_ne_nil (pend ++ [c]) rest t

/-- Claim C8 (amended): for every element with a class attribute,
`process_class` appends the element handle to the class-index entry of
each token of the raw class value, one entry per occurrence in emission
order, where the tokens are obtained by splitting on space and line-feed
bytes occurring before the final byte — the final token always extends
through the final byte, so when the value ends in a whitespace byte that
byte is part of the final token — and every emitted token is non-empty. -/
theorem c8_class_tokenization (classes : List (Bytes × List Node)) (c : Bytes) (n : Node) :
    processClassFold classes c n
      = (specSplit c).foldl (fun m tok => pushEntry m tok n) classes
    ∧ ∀ t ∈ specSplit c, t ≠ [] := by
  constructor
  · rw [processClassFold, classTokens_eq_specSplit]
  · exact fun t ht => specSplitGo_ne_nil [] c t ht

theorem c8_class_tokenization_witness :
    processClassFold [] (strBytes "a a") (Node.raw [])
      = (specSplit (strBytes "a a")).foldl (fun m tok => pushEntry m tok (Node.raw [])) []
    ∧ strBytes "a" ≠ [] :=
  ⟨(c8_class_tokenization [] (strBytes "a a") (Node.raw [])).1,
   (c8_class_tokenization [] (strBytes "a a") (Node.raw [])).2 (strBytes "a") (by decide)⟩

/-- Claim C8 counterexample: parsing `<p class="a ">x</p>` — a class
value whose final byte is a space — yields a class-index entry under the
key `a ` (a token containing the whitespace byte 32) and no entry under
`a`, contradicting the claim that only whitespace-free tokens receive
entries. -/
theorem c8_counterexample :
    (getOk (parseDoc (strBytes "<p class=\"a \">x</p>"))).map
      (fun st => ((lookupA st.classes (strBytes "a ")).isSome,
                  (lookupA st.classes (strBytes "a")).isSome)) = some (true, false)
    ∧ 32 ∈ strBytes "a " ∧ isStrictWhitespace 32 = true := by
  refine ⟨?_, by decide, by decide⟩
  simp [parseDoc, parseFuel, PState.init, parse_loop, parse_single, parse_tag, parse_tag_rest,
    parse_children, parseAttributes, parseAttributesAuxN, parseAttribute, readIdent, readIdentN,
    readTo, readToN, readWhile, readWhileN, Stream.skipWs, skipComment, skipCommentN, strBytes,
    Stream.isEof, Stream.currentU, Stream.currentCpy, Stream.advance, Stream.incr, Stream.next,
    Stream.slice, Stream.sliceU, Stream.sliceLen, Stream.sliceFrom, Stream.expectOneofSkip,
    Stream.expectSkip, Stream.expectSkipCond, isIdent, isStrictWhitespace, toUpperBytes,
    doctypeBytes, htmlBytes, idAttr, classAttr, voidTags, insertA, lookupA, pushEntry,
    processClassFold, classTokens, classTokensAuxN, getOk, Attrs.new]

theorem expectSkip_some (b : Nat) (s : Stream) (c : Nat) (s' : Stream)
    (h : Stream.expectSkip b s = (some c, s')) :
    s'.idx = s.idx + 1 ∧ s'.data = s.data ∧ s.data.get? s.idx = some b ∧ c = b := by
  unfold Stream.expectSkip Stream.expectOneofSkip at h
  rcases hg : s.data.get? s.idx with _ | c0 <;> rw [hg] at h
  · simp at h
  · by_cases hc : c0 = b
    · subst hc
      simp [Stream.incr, Stream.advance] at h
      obtain ⟨h1, h2⟩ := h
      subst h2
      simp_all [Stream.incr, Stream.advance]
    · simp [hc] at h

/-- Claim C6: in the child loop of a container element, once the literal
`</` has been found, the identifier read after it must be byte-equal
(case included) to the opening tag name; on a mismatch the loop returns
`none` — no node is produced for the subtree and the accumulated children
are dropped — and no error is surfaced (the only outcome channel is the
optional node). -/
theorem c6_end_tag_mismatch (f : Nat) (name : Bytes) (attrs : Attrs) (start : Nat)
    (children : List Node) (st : PState) (ident : Bytes) (s3 : Stream)
    (hne : st.stream.isEof = false)
    (hslice : Stream.slice st.stream.skipWs st.stream.skipWs.idx
        (st.stream.skipWs.idx + 2) = [60, 47])
    (hident : Stream.readIdent (Stream.advance 2 st.stream.skipWs) = (some ident, s3))
    (hmm : ident ≠ name) :
    parse_children (f + 1) name attrs start children st = .ok (none, { st with stream := s3 }) := by
  unfold parse_children
  rw [if_neg (by simp [hne])]
  rcases hsw : st.stream.skipWs with ⟨d1, i1⟩
  rw [hsw] at hslice hident
  simp only at hslice hident ⊢
  simp [hslice, hident, hmm]

theorem c6_end_tag_mismatch_witness :
    parse_children 1 (strBytes "a") Attrs.new 0 [] (PState.init (strBytes "</b>"))
      = .ok (none, { PState.init (strBytes "</b>") with stream := ⟨strBytes "</b>", 3⟩ }) :=
  c6_end_tag_mismatch 0 (strBytes "a") Attrs.new 0 [] (PState.init (strBytes "</b>"))
    (strBytes "b") ⟨strBytes "</b>", 3⟩ (by decide) (by decide) (by decide) (by decide)

/-- Claim C7: whenever the continuation of `parse_tag` after the
attributes produces a tag node and either the explicit self-closing `/`
was seen at that point or the tag name is one of the void-element names,
the produced node has an empty child list — regardless of the bytes that
follow — and its raw span is the consumed span, ending at the `>` just
consumed. -/
theorem c7_void_self_closing (f : Nat) (name : Bytes) (attrs : Attrs) (start : Nat)
    (st : PState) (t : Node) (st' : PState)
    (hcond : (Stream.expectSkipCond 47 st.stream).1 = true ∨ name ∈ voidTags)
    (hres : parse_tag_rest f name attrs start st = .ok (some t, st')) :
    t = Node.tag (some name) attrs [] (Stream.sliceFrom st'.stream start)
    ∧ 1 ≤ st'.stream.idx ∧ st'.stream.data.get? (st'.stream.idx - 1) = some 62 := by
  match f with
  | 0 => exact absurd hres (by simp [parse_tag_rest])
  | f + 1 =>
    unfold parse_tag_rest at hres
    rcases hE : Stream.expectSkipCond 47 st.stream with ⟨sc, s1⟩
    rw [hE] at hres hcond
    cases sc
    · -- no explicit `/`: the void-name early return
      have hvoid : name ∈ voidTags := by
        rcases hcond with h | h
        · simp at h
        · exact h
      dsimp only at hres
      rcases hS : Stream.expectSkip 62 s1.skipWs with ⟨g, s3⟩
      cases g with
      | none => rw [hS] at hres; simp at hres
      | some gv =>
        rw [hS] at hres
        simp [hvoid] at hres
        obtain ⟨h1, h2, h3, _⟩ := expectSkip_some 62 s1.skipWs gv s3 hS
        obtain ⟨ht, hst⟩ := hres
        subst ht
        subst hst
        refine ⟨rfl, by simp [h1], ?_⟩
        simp only [h1, h2]
        simpa using h3
    · dsimp only at hres
      rcases hS : Stream.expectSkip 62 s1.skipWs with ⟨g, s3⟩
      cases g with
      | none => rw [hS] at hres; simp at hres
      | some gv =>
        rw [hS] at hres
        simp at hres
        obtain ⟨h1, h2, h3, _⟩ := expectSkip_some 62 s1.skipWs gv s3 hS
        obtain ⟨ht, hst⟩ := hres
        subst ht
        subst hst
        refine ⟨rfl, by simp [h1], ?_⟩
        simp only [h1, h2]
        simpa using h3

theorem c7_void_self_closing_witness :
    ((Stream.expectSkipCond 47 (⟨strBytes "<br>x", 3⟩ : Stream)).1 = true
        ∨ strBytes "br" ∈ voidTags)
    ∧ (Node.tag (some (strBytes "br")) Attrs.new [] (strBytes "<br>")
        = Node.tag (some (strBytes "br")) Attrs.new []
            (Stream.sliceFrom (⟨strBytes "<br>x", 4⟩ : Stream) 0)
      ∧ 1 ≤ (4 : Nat) ∧ (strBytes "<br>x").get? (4 - 1) = some 62) :=
  ⟨by decide,
   c7_void_self_closing 1 (strBytes "br") Attrs.new 0
     ⟨⟨strBytes "<br>x", 3⟩, [], [], [], none, []⟩
     (Node.tag (some (strBytes "br")) Attrs.new [] (strBytes "<br>"))
     ⟨⟨strBytes "<br>x", 4⟩, [], [], [], none, []⟩
     (by decide) (by decide)⟩

theorem expectSkipCond_true (b : Nat) (s s' : Stream)
    (h : Stream.expectSkipCond b s = (true, s')) :
    s'.idx = s.idx + 1 ∧ s'.data = s.data ∧ s.data.get? s.idx = some b := by
  unfold Stream.expectSkipCond at h
  rcases hS : Stream.expectSkip b s with ⟨g, s2⟩
  rw [hS] at h
  cases g with
  | none => simp at h
  | some c =>
    simp at h
    obtain ⟨h1, h2, h3, _⟩ := expectSkip_some b s c s2 hS
    rw [← h]
    exact ⟨h1, h2, h3⟩

theorem skipCommentN_some : ∀ (n start : Nat) (s : Stream) (c : Bytes) (s' : Stream),
    Stream.skipCommentN n start s = (some c, s') →
    c = (s'.data.drop start).take (s'.idx - start)
    ∧ s'.data = s.data ∧ s.idx ≤ s'.idx ∧ 3 ≤ s'.idx
    ∧ (s'.data.drop (s'.idx - 3)).take 3 = [45, 45, 62] := by
  intro n
  induction n with
  | zero => intro start s c s' h; simp [Stream.skipCommentN] at h
  | succ n ih =>
    intro start s c s' h
    unfold Stream.skipCommentN at h
    by_cases hE : s.isEof = true
    · rw [if_pos hE] at h; simp at h
    · rw [if_neg hE] at h
      by_cases hC : s.sliceLen s.idx 2 = [45, 45]
      · rw [if_pos hC] at h
        rcases hX : (s.advance 2).expectSkipCond 62 with ⟨b, s2⟩
        rw [hX] at h
        cases b
        · dsimp only at h
          obtain ⟨hc, hd, hi, h3, hsuf⟩ := ih start s2.incr c s' h
          have hXd := expectSkipCond_data 62 (s.advance 2)
          have hXi := expectSkipCond_idx 62 (s.advance 2)
          rw [hX] at hXd hXi
          simp [Stream.advance] at hXd hXi
          refine ⟨hc, ?_, ?_, h3, hsuf⟩
          · rw [hd]; simp [Stream.incr, Stream.advance, hXd]
          · simp [Stream.incr, Stream.advance] at hi
            omega
        · dsimp only at h
          simp only [Prod.mk.injEq, Option.some.injEq] at h
          obtain ⟨hc, hs⟩ := h
          subst hs
          obtain ⟨h1, h2, h3⟩ := expectSkipCond_true 62 (s.advance 2) s2 hX
          simp [Stream.advance] at h1 h2 h3
          have hidx : s2.idx = s.idx + 3 := by omega
          refine ⟨hc.symm, h2, by omega, by omega, ?_⟩
          have hsub : s2.idx - 3 = s.idx := by omega
          rw [hsub, h2]
          have htake : (s.data.drop s.idx).take 3
              = (s.data.drop s.idx).take 2 ++ ((s.data.drop s.idx)[2]?).toList :=
            List.take_succ
          have hg2 : (s.data.drop s.idx)[2]? = some 62 := by
            rw [List.getElem?_drop]
            simpa using h3
          rw [htake, hg2]
          have hC2 : (s.data.drop s.idx).take 2 = [45, 45] := by
            have := hC
            unfold Stream.sliceLen Stream.slice at this
            simpa using this
          rw [hC2]
          rfl
      · rw [if_neg hC] at h
        obtain ⟨hc, hd, hi, h3, hsuf⟩ := ih start s.incr c s' h
        refine ⟨hc, ?_, ?_, h3, hsuf⟩
        · rw [hd]; simp [Stream.incr, Stream.advance]
        · simp [Stream.incr, Stream.advance] at hi
          omega

theorem skipComment_some (s : Stream) (c : Bytes) (s' : Stream)
    (h : Stream.skipComment s = (some c, s')) :
    c = (s'.data.drop s.idx).take (s'.idx - s.idx)
    ∧ s'.data = s.data ∧ s.idx ≤ s'.idx ∧ 3 ≤ s'.idx
    ∧ (s'.data.drop (s'.idx - 3)).take 3 = [45, 45, 62] :=
  skipCommentN_some _ s.idx s c s' h

theorem sliceLen4_bytes (s : Stream) (h : Stream.sliceLen s s.idx 4 = [60, 33, 45, 45]) :
    s.data.get? s.idx = some 60 ∧ s.data.get? (s.idx + 1) = some 33
    ∧ Stream.slice s (s.idx + 2) (s.idx + 2 + 2) = [45, 45] := by
  unfold Stream.sliceLen Stream.slice at h
  have h4 : s.idx + 4 - s.idx = 4 := by omega
  rw [h4] at h
  refine ⟨?_, ?_, ?_⟩
  · have h0 : (s.data.drop s.idx)[0]? = some 60 := by
      have := List.getElem?_take (l := s.data.drop s.idx) (n := 4) (m := 0)
      rw [h] at this
      simpa using this.symm
    rw [List.getElem?_drop] at h0
    simpa using h0
  · have h1 : (s.data.drop s.idx)[1]? = some 33 := by
      have := List.getElem?_take (l := s.data.drop s.idx) (n := 4) (m := 1)
      rw [h] at this
      simpa using this.symm
    rw [List.getElem?_drop] at h1
    simpa using h1
  · have h2 : ((s.data.drop s.idx).take 4).drop 2 = [45, 45] := by rw [h]; rfl
    rw [List.drop_take, List.drop_drop] at h2
    unfold Stream.slice
    have e1 : s.idx + 2 + 2 - (s.idx + 2) = 4 - 2 := by omega
    rw [e1]
    exact h2

/-- Claim C4 (amended): when `parse_tag` enters an element at `<`
followed by `!--`, it runs the `skip_comment` scan from just after the
`<!--` opener; if the scan finds `--` immediately followed by `>` it
emits a Comment node whose byte span runs from just after the `<!--`
opener (not from the original `<`) through the end of that `-->`, and if
the scan reaches end of input without a match it produces no node. -/
theorem c4_comment_span (f : Nat) (st : PState)
    (hop : Stream.sliceLen st.stream st.stream.idx 4 = [60, 33, 45, 45]) :
    (∀ s3, Stream.skipComment (Stream.advance 4 st.stream) = (none, s3) →
        parse_tag (f + 1) true st = .ok (none, { st with stream := s3 }))
    ∧ ∀ c s3, Stream.skipComment (Stream.advance 4 st.stream) = (some c, s3) →
        parse_tag (f + 1) true st = .ok (some (Node.comment c), { st with stream := s3 })
        ∧ c = (st.stream.data.drop (st.stream.idx + 4)).take (s3.idx - (st.stream.idx + 4))
        ∧ 3 ≤ s3.idx ∧ (st.stream.data.drop (s3.idx - 3)).take 3 = [45, 45, 62] := by
  obtain ⟨hg0, hg1, hsl⟩ := sliceLen4_bytes st.stream hop
  have hnext : Stream.next st.stream = (some 60, Stream.incr st.stream) := by
    unfold Stream.next
    rw [hg0]
  have hexp : Stream.expectSkipCond 33 (Stream.incr st.stream)
      = (true, Stream.incr (Stream.incr st.stream)) := by
    unfold Stream.expectSkipCond Stream.expectSkip Stream.expectOneofSkip
    have hb : (Stream.incr st.stream).data.get? (Stream.incr st.stream).idx = some 33 := by
      simpa [Stream.incr, Stream.advance] using hg1
    rw [hb]
    simp
  have hadv : Stream.advance 2 (Stream.incr (Stream.incr st.stream))
      = Stream.advance 4 st.stream := by
    simp [Stream.incr, Stream.advance]
  have hslice : Stream.slice (Stream.incr (Stream.incr st.stream))
      (Stream.incr (Stream.incr st.stream)).idx
      ((Stream.incr (Stream.incr st.stream)).idx + 2) = [45, 45] := by
    simpa [Stream.incr, Stream.advance, Stream.slice,
      show st.stream.idx + 1 + 1 = st.stream.idx + 2 from by omega] using hsl
  have hbody : ∀ copt s3, Stream.skipComment (Stream.advance 4 st.stream) = (copt, s3) →
      parse_tag (f + 1) true st =
        (match copt with
         | some c => .ok (some (Node.comment c), { st with stream := s3 })
         | none => .ok (none, { st with stream := s3 })) := by
    intro copt s3 hSC
    unfold parse_tag
    dsimp only
    rw [show (if true = true then Stream.next st.stream else (some 0, st.stream))
        = Stream.next st.stream from rfl]
    rw [hnext]
    dsimp only
    rw [hexp]
    dsimp only
    rw [if_pos rfl, if_pos hslice, hadv, hSC]
    cases copt <;> rfl
  constructor
  · intro s3 h
    exact hbody none s3 h
  · intro c s3 h
    obtain ⟨hc, hd, _, h3, hsuf⟩ := skipComment_some (Stream.advance 4 st.stream) c s3 h
    have hd4 : (Stream.advance 4 st.stream).data = st.stream.data := rfl
    refine ⟨hbody (some c) s3 h, ?_, h3, ?_⟩
    · rw [hc, hd, hd4]
      rfl
    · rw [← hd4, ← hd]
      exact hsuf

theorem c4_comment_span_witness :
    parse_tag 1 true ⟨⟨strBytes "<!--x-->", 0⟩, [], [], [], none, []⟩
      = .ok (some (Node.comment (strBytes "x-->")),
             { (⟨⟨strBytes "<!--x-->", 0⟩, [], [], [], none, []⟩ : PState) with
                stream := (⟨strBytes "<!--x-->", 8⟩ : Stream) })
    ∧ strBytes "x-->"
        = ((strBytes "<!--x-->").drop (0 + 4)).take ((8 : Nat) - (0 + 4))
    ∧ 3 ≤ (8 : Nat) ∧ ((strBytes "<!--x-->").drop (8 - 3)).take 3 = [45, 45, 62] :=
  (c4_comment_span 0 ⟨⟨strBytes "<!--x-->", 0⟩, [], [], [], none, []⟩ (by decide)).2
    (strBytes "x-->") ⟨strBytes "<!--x-->", 8⟩ (by decide)

/-- Claim C4 counterexample: parsing `<!--x-->` produces a Comment node
whose byte span is `x-->` — the bytes from just after the `<!--` opener —
and not the claimed full `<!--x-->` span from the original `<`. -/
theorem c4_counterexample :
    (getOk (parseDoc (strBytes "<!--x-->"))).map (fun st => st.ast)
      = some [Node.comment (strBytes "x-->")]
    ∧ strBytes "x-->" ≠ strBytes "<!--x-->" := by
  refine ⟨?_, by decide⟩
  simp [parseDoc, parseFuel, PState.init, parse_loop, parse_single, parse_tag, parse_tag_rest,
    parse_children, parseAttributes, parseAttributesAuxN, parseAttribute, Stream.readIdent,
    Stream.readIdentN, Stream.readTo, Stream.readToN, Stream.readWhile, Stream.readWhileN,
    Stream.skipWs, Stream.skipComment, Stream.skipCommentN, strBytes,
    Stream.isEof, Stream.currentU, Stream.currentCpy, Stream.advance, Stream.incr, Stream.next,
    Stream.slice, Stream.sliceU, Stream.sliceLen, Stream.sliceFrom, Stream.expectOneofSkip,
    Stream.expectSkip, Stream.expectSkipCond, isIdent, isStrictWhitespace, toUpperBytes,
    doctypeBytes, htmlBytes, idAttr, classAttr, voidTags, insertA, lookupA, pushEntry,
    processClassFold, classTokens, classTokensAuxN, getOk, Attrs.new]

/-! ## The index invariant: the id and class maps are the fold of the
bookkeeping steps over the arena -/

/-- The state invariant tying the two indices to the arena: the id and
class maps are exactly what folding the `parse_single` bookkeeping over
the arena (in insertion order) produces. -/
def Inv (st : PState) : Prop :=
  st.ids = buildIds st.tags ∧ st.classes = buildClasses st.tags

theorem buildIds_append (tags : List Node) (n : Node) :
    buildIds (tags ++ [n])
      = (match n with
         | .tag _ a _ _ =>
           (match a.id with
            | some i => insertA (buildIds tags) i n
            | none => buildIds tags)
         | _ => buildIds tags) := by
  unfold buildIds
  rw [List.foldl_append]
  rfl

theorem buildClasses_append (tags : List Node) (n : Node) :
    buildClasses (tags ++ [n])
      = (match n with
         | .tag _ a _ _ =>
           (match a.cls with
            | some c => processClassFold (buildClasses tags) c n
            | none => buildClasses tags)
         | _ => buildClasses tags) := by
  unfold buildClasses
  rw [List.foldl_append]
  rfl

theorem okPair {α β : Type} {a r : α} {b s : β} (h : (Res.ok (a, b) : Res (α × β)) = .ok (r, s)) :
    a = r ∧ b = s := by
  injection h with h1
  exact ⟨congrArg Prod.fst h1, congrArg Prod.snd h1⟩

theorem parseAttributesAuxN_facts : ∀ (n : Nat) (attrs : Attrs) (s : Stream) (r : Attrs)
    (s' : Stream), parseAttributesAuxN n attrs s = some (r, s') →
    s'.data = s.data ∧ s.idx ≤ s'.idx := by
  intro n
  induction n with
  | zero =>
    intro attrs s r s' h
    simp only [parseAttributesAuxN, Option.some.injEq] at h
    obtain ⟨_, h2⟩ := Prod.mk.injEq .. ▸ h
    rw [← h2]
    exact ⟨rfl, le_rfl⟩
  | succ n ih =>
    intro attrs s r s' h
    unfold parseAttributesAuxN at h
    by_cases hE : s.isEof = true
    · rw [if_pos hE] at h
      simp only [Option.some.injEq] at h
      obtain ⟨_, h2⟩ := Prod.mk.injEq .. ▸ h
      rw [← h2]
      exact ⟨rfl, le_rfl⟩
    · rw [if_neg hE] at h
      dsimp only at h
      rcases hg : (Stream.skipWs s).data.get? (Stream.skipWs s).idx with _ | cur
      · rw [hg] at h
        simp at h
      · rw [hg] at h
        dsimp only at h
        by_cases hc : cur ∈ ([47, 62] : List Nat)
        · rw [if_pos hc] at h
          simp only [Option.some.injEq] at h
          obtain ⟨_, h2⟩ := Prod.mk.injEq .. ▸ h
          rw [← h2]
          exact ⟨skipWs_data s, skipWs_idx s⟩
        · rw [if_neg hc] at h
          rcases hA : parseAttribute (Stream.skipWs s) with ⟨kv, s2⟩
          rw [hA] at h
          have hAd : s2.data = (Stream.skipWs s).data := by
            have := parseAttribute_data (Stream.skipWs s); rw [hA] at this; exact this
          have hAi : (Stream.skipWs s).idx ≤ s2.idx := by
            have := parseAttribute_idx (Stream.skipWs s); rw [hA] at this; exact this
          rcases kv with _ | ⟨k, v⟩
          · dsimp only at h
            obtain ⟨hd, hi⟩ := ih _ _ _ _ h
            constructor
            · rw [hd]
              simp [Stream.incr, Stream.advance, hAd, skipWs_data]
            · simp [Stream.incr, Stream.advance] at hi
              have := skipWs_idx s
              omega
          · dsimp only at h
            obtain ⟨hd, hi⟩ := ih _ _ _ _ h
            constructor
            · rw [hd]
              simp [Stream.incr, Stream.advance, hAd, skipWs_data]
            · simp [Stream.incr, Stream.advance] at hi
              have := skipWs_idx s
              omega

theorem bool_false_ne_true : ¬(false = true) := by simp

theorem next_data (s : Stream) : ((Stream.next s).2).data = s.data := by
  unfold Stream.next
  rcases h : s.data.get? s.idx with _ | c <;> simp [h, Stream.incr, Stream.advance]

theorem next_idx (s : Stream) : s.idx ≤ ((Stream.next s).2).idx := by
  unfold Stream.next
  rcases h : s.data.get? s.idx with _ | c <;> simp [h, Stream.incr, Stream.advance]

theorem parse_preserves : ∀ f : Nat,
    (∀ st r st', parse_single f st = .ok (r, st') →
      st'.stream.data = st.stream.data ∧ (Inv st → Inv st'))
    ∧ (∀ b st r st', parse_tag f b st = .ok (r, st') →
      st'.stream.data = st.stream.data ∧ (Inv st → Inv st'))
    ∧ (∀ name attrs start st r st', parse_tag_rest f name attrs start st = .ok (r, st') →
      st'.stream.data = st.stream.data ∧ (Inv st → Inv st'))
    ∧ (∀ name attrs start children st r st',
        parse_children f name attrs start children st = .ok (r, st') →
      st'.stream.data = st.stream.data ∧ (Inv st → Inv st')) := by
  intro f
  induction f with
  | zero =>
    refine ⟨?_, ?_, ?_, ?_⟩
    · intro st r st' h; simp [parse_single] at h
    · intro b st r st' h; simp [parse_tag] at h
    · intro name attrs start st r st' h; simp [parse_tag_rest] at h
    · intro name attrs start children st r st' h; simp [parse_children] at h
  | succ f ih =>
    obtain ⟨ihS, ihT, ihR, ihC⟩ := ih
    refine ⟨?_, ?_, ?_, ?_⟩
    · -- parse_single
      intro st r st' h
      unfold parse_single at h
      dsimp only at h
      rcases hg : (Stream.skipWs st.stream).data.get? (Stream.skipWs st.stream).idx with _ | ch
      · rw [hg] at h
        dsimp only at h
        obtain ⟨_, h2⟩ := okPair h
        rw [← h2]
        exact ⟨skipWs_data st.stream, fun hI => hI⟩
      · rw [hg] at h
        dsimp only at h
        by_cases hch : ch = 60
        · rw [if_pos hch] at h
          rcases hT : parse_tag f true { st with stream := Stream.skipWs st.stream }
              with _ | _ | ⟨nodeOpt, st1⟩
          · rw [hT] at h; simp at h
          · rw [hT] at h; simp at h
          · rw [hT] at h
            obtain ⟨hTd, hTI⟩ := ihT true _ nodeOpt st1 hT
            have hTd2 : st1.stream.data = st.stream.data := by
              rw [hTd]; exact skipWs_data st.stream
            rcases nodeOpt with _ | node
            · dsimp only at h
              obtain ⟨_, h2⟩ := okPair h
              rw [← h2]
              exact ⟨hTd2, hTI⟩
            · rcases node with ⟨nm, nattrs, nch, nraw⟩ | nb | nb
              · dsimp only at h
                obtain ⟨_, h2⟩ := okPair h
                rw [← h2]
                refine ⟨hTd2, fun hI => ?_⟩
                obtain ⟨hI1, hI2⟩ := hTI hI
                constructor
                · show (match nattrs.id with
                        | some i => insertA st1.ids i (Node.tag nm nattrs nch nraw)
                        | none => st1.ids)
                      = buildIds (st1.tags ++ [Node.tag nm nattrs nch nraw])
                  rw [buildIds_append, hI1]
                · show (match nattrs.cls with
                        | some c => processClassFold st1.classes c (Node.tag nm nattrs nch nraw)
                        | none => st1.classes)
                      = buildClasses (st1.tags ++ [Node.tag nm nattrs nch nraw])
                  rw [buildClasses_append, hI2]
              · dsimp only at h
                obtain ⟨_, h2⟩ := okPair h
                rw [← h2]
                refine ⟨hTd2, fun hI => ?_⟩
                obtain ⟨hI1, hI2⟩ := hTI hI
                exact ⟨by rw [buildIds_append, hI1], by rw [buildClasses_append, hI2]⟩
              · dsimp only at h
                obtain ⟨_, h2⟩ := okPair h
                rw [← h2]
                refine ⟨hTd2, fun hI => ?_⟩
                obtain ⟨hI1, hI2⟩ := hTI hI
                exact ⟨by rw [buildIds_append, hI1], by rw [buildClasses_append, hI2]⟩
        · rw [if_neg hch] at h
          rcases hR : Stream.readTo [60] (Stream.skipWs st.stream) with ⟨txt, s2⟩
          rw [hR] at h
          dsimp only at h
          obtain ⟨_, h2⟩ := okPair h
          rw [← h2]
          have hRd : s2.data = st.stream.data := by
            have := readTo_data [60] (Stream.skipWs st.stream)
            rw [hR] at this
            rw [this]
            exact skipWs_data st.stream
          refine ⟨hRd, fun hI => ?_⟩
          obtain ⟨hI1, hI2⟩ := hI
          exact ⟨by rw [buildIds_append, hI1], by rw [buildClasses_append, hI2]⟩
    · -- parse_tag
      intro b st r st' h
      unfold parse_tag at h
      dsimp only at h
      cases b
      · rw [show ({ data := st.stream.data, idx := st.stream.idx } : Stream)
            = st.stream from rfl] at h
        simp only [Bool.false_eq_true, if_false] at h
        set s0 := st.stream with hs0
        have hd0 : s0.data = st.stream.data := rfl
        rcases hx1 : Stream.expectSkipCond 33 s0 with ⟨md, s1⟩
        rw [hx1] at h
        have hd1 : s1.data = st.stream.data := by
          have hq := expectSkipCond_data 33 s0
          rw [hx1] at hq
          rw [hq, hd0]
        dsimp only at h
        cases md
        · rw [if_neg bool_false_ne_true] at h
          rcases hx2 : Stream.readIdent s1 with ⟨nmo, s2⟩
          rw [hx2] at h
          have hd2 : s2.data = st.stream.data := by
            have hq := readIdent_data s1
            rw [hx2] at hq
            rw [hq, hd1]
          rcases nmo with _ | name
          · dsimp only at h
            obtain ⟨_, h2⟩ := okPair h
            rw [← h2]
            exact ⟨hd2, fun hI => hI⟩
          · dsimp only at h
            rcases hx3 : parseAttributes s2 with _ | ⟨attrs, s3⟩
            · rw [hx3] at h; simp at h
            · rw [hx3] at h
              dsimp only at h
              have hd3 : s3.data = s2.data :=
                (parseAttributesAuxN_facts _ _ _ _ _ hx3).1
              obtain ⟨hr1, hr2⟩ := ihR name attrs st.stream.idx { st with stream := s3 } r st' h
              refine ⟨?_, hr2⟩
              rw [hr1]
              show s3.data = st.stream.data
              rw [hd3, hd2]
        · rw [if_pos rfl] at h
          by_cases hcm : Stream.slice s1 s1.idx (s1.idx + 2) = [45, 45]
          · rw [if_pos hcm] at h
            rcases hx4 : Stream.skipComment (Stream.advance 2 s1) with ⟨copt, s3⟩
            rw [hx4] at h
            have hd3 : s3.data = st.stream.data := by
              have hq := skipComment_data (Stream.advance 2 s1)
              rw [hx4] at hq
              rw [hq]
              show s1.data = st.stream.data
              exact hd1
            rcases copt with _ | c
            · dsimp only at h
              obtain ⟨_, h2⟩ := okPair h
              rw [← h2]
              exact ⟨hd3, fun hI => hI⟩
            · dsimp only at h
              obtain ⟨_, h2⟩ := okPair h
              rw [← h2]
              exact ⟨hd3, fun hI => hI⟩
          · rw [if_neg hcm] at h
            rcases hx5 : Stream.readIdent s1 with ⟨nmo, s2⟩
            rw [hx5] at h
            have hd2 : s2.data = st.stream.data := by
              have hq := readIdent_data s1
              rw [hx5] at hq
              rw [hq, hd1]
            rcases nmo with _ | nm
            · dsimp only at h
              obtain ⟨_, h2⟩ := okPair h
              rw [← h2]
              exact ⟨hd2, fun hI => hI⟩
            · dsimp only at h
              by_cases hdoc : toUpperBytes nm = doctypeBytes
              · rw [if_pos hdoc] at h
                rcases hx6 : Stream.readIdent (Stream.skipWs s2) with ⟨iopt, s4⟩
                rw [hx6] at h
                have hd4 : s4.data = st.stream.data := by
                  have hq := readIdent_data (Stream.skipWs s2)
                  rw [hx6] at hq
                  rw [hq, skipWs_data, hd2]
                rcases iopt with _ | i
                · dsimp only at h
                  simp only [Bool.false_eq_true, if_false] at h
                  obtain ⟨_, h2⟩ := okPair h
                  rw [← h2]
                  exact ⟨hd4, fun hI => hI⟩
                · dsimp only at h
                  by_cases h5 : (toUpperBytes i == htmlBytes) = true
                  · rw [if_pos h5] at h
                    rcases hx7 : Stream.expectSkip 62 (Stream.skipWs s4) with ⟨gopt, s6⟩
                    rw [hx7] at h
                    dsimp only at h
                    obtain ⟨_, h2⟩ := okPair h
                    rw [← h2]
                    have hd6 : s6.data = st.stream.data := by
                      have hq := expectSkip_data 62 (Stream.skipWs s4)
                      rw [hx7] at hq
                      rw [hq, skipWs_data, hd4]
                    exact ⟨hd6, fun hI => hI⟩
                  · rw [if_neg h5] at h
                    obtain ⟨_, h2⟩ := okPair h
                    rw [← h2]
                    exact ⟨hd4, fun hI => hI⟩
              · rw [if_neg hdoc] at h
                obtain ⟨_, h2⟩ := okPair h
                rw [← h2]
                exact ⟨hd2, fun hI => hI⟩
      · rw [if_pos rfl] at h
        rcases hnx : Stream.next st.stream with ⟨nopt, s0⟩
        rw [hnx] at h
        have hd0 : s0.data = st.stream.data := by
          have hq := next_data st.stream
          rw [hnx] at hq
          exact hq
        rcases nopt with _ | c0
        · dsimp only at h
          obtain ⟨_, h2⟩ := okPair h
          rw [← h2]
          exact ⟨hd0, fun hI => hI⟩
        · dsimp only at h
          rcases hx1 : Stream.expectSkipCond 33 s0 with ⟨md, s1⟩
          rw [hx1] at h
          have hd1 : s1.data = st.stream.data := by
            have hq := expectSkipCond_data 33 s0
            rw [hx1] at hq
            rw [hq, hd0]
          dsimp only at h
          cases md
          · rw [if_neg bool_false_ne_true] at h
            rcases hx2 : Stream.readIdent s1 with ⟨nmo, s2⟩
            rw [hx2] at h
            have hd2 : s2.data = st.stream.data := by
              have hq := readIdent_data s1
              rw [hx2] at hq
              rw [hq, hd1]
            rcases nmo with _ | name
            · dsimp only at h
              obtain ⟨_, h2⟩ := okPair h
              rw [← h2]
              exact ⟨hd2, fun hI => hI⟩
            · dsimp only at h
              rcases hx3 : parseAttributes s2 with _ | ⟨attrs, s3⟩
              · rw [hx3] at h; simp at h
              · rw [hx3] at h
                dsimp only at h
                have hd3 : s3.data = s2.data :=
                  (parseAttributesAuxN_facts _ _ _ _ _ hx3).1
                obtain ⟨hr1, hr2⟩ := ihR name attrs st.stream.idx { st with stream := s3 } r st' h
                refine ⟨?_, hr2⟩
                rw [hr1]
                show s3.data = st.stream.data
                rw [hd3, hd2]
          · rw [if_pos rfl] at h
            by_cases hcm : Stream.slice s1 s1.idx (s1.idx + 2) = [45, 45]
            · rw [if_pos hcm] at h
              rcases hx4 : Stream.skipComment (Stream.advance 2 s1) with ⟨copt, s3⟩
              rw [hx4] at h
              have hd3 : s3.data = st.stream.data := by
                have hq := skipComment_data (Stream.advance 2 s1)
                rw [hx4] at hq
                rw [hq]
                show s1.data = st.stream.data
                exact hd1
              rcases copt with _ | c
              · dsimp only at h
                obtain ⟨_, h2⟩ := okPair h
                rw [← h2]
                exact ⟨hd3, fun hI => hI⟩
              · dsimp only at h
                obtain ⟨_, h2⟩ := okPair h
                rw [← h2]
                exact ⟨hd3, fun hI => hI⟩
            · rw [if_neg hcm] at h
              rcases hx5 : Stream.readIdent s1 with ⟨nmo, s2⟩
              rw [hx5] at h
              have hd2 : s2.data = st.stream.data := by
                have hq := readIdent_data s1
                rw [hx5] at hq
                rw [hq, hd1]
              rcases nmo with _ | nm
              · dsimp only at h
                obtain ⟨_, h2⟩ := okPair h
                rw [← h2]
                exact ⟨hd2, fun hI => hI⟩
              · dsimp only at h
                by_cases hdoc : toUpperBytes nm = doctypeBytes
                · rw [if_pos hdoc] at h
                  rcases hx6 : Stream.readIdent (Stream.skipWs s2) with ⟨iopt, s4⟩
                  rw [hx6] at h
                  have hd4 : s4.data = st.stream.data := by
                    have hq := readIdent_data (Stream.skipWs s2)
                    rw [hx6] at hq
                    rw [hq, skipWs_data, hd2]
                  rcases iopt with _ | i
                  · dsimp only at h
                    simp only [Bool.false_eq_true, if_false] at h
                    obtain ⟨_, h2⟩ := okPair h
                    rw [← h2]
                    exact ⟨hd4, fun hI => hI⟩
                  · dsimp only at h
                    by_cases h5 : (toUpperBytes i == htmlBytes) = true
                    · rw [if_pos h5] at h
                      rcases hx7 : Stream.expectSkip 62 (Stream.skipWs s4) with ⟨gopt, s6⟩
                      rw [hx7] at h
                      dsimp only at h
                      obtain ⟨_, h2⟩ := okPair h
                      rw [← h2]
                      have hd6 : s6.data = st.stream.data := by
                        have hq := expectSkip_data 62 (Stream.skipWs s4)
                        rw [hx7] at hq
                        rw [hq, skipWs_data, hd4]
                      exact ⟨hd6, fun hI => hI⟩
                    · rw [if_neg h5] at h
                      obtain ⟨_, h2⟩ := okPair h
                      rw [← h2]
                      exact ⟨hd4, fun hI => hI⟩
                · rw [if_neg hdoc] at h
                  obtain ⟨_, h2⟩ := okPair h
                  rw [← h2]
                  exact ⟨hd2, fun hI => hI⟩
    · -- parse_tag_rest
      intro name attrs start st r st' h
      unfold parse_tag_rest at h
      dsimp only at h
      rcases hx1 : Stream.expectSkipCond 47 st.stream with ⟨sc, s1⟩
      rw [hx1] at h
      have hd1 : s1.data = st.stream.data := by
        have hq := expectSkipCond_data 47 st.stream
        rw [hx1] at hq
        exact hq
      dsimp only at h
      rcases hx2 : Stream.expectSkip 62 (Stream.skipWs s1) with ⟨g, s3⟩
      have hd3 : s3.data = st.stream.data := by
        have hq := expectSkip_data 62 (Stream.skipWs s1)
        rw [hx2] at hq
        rw [hq, skipWs_data, hd1]
      cases sc
      · rw [if_neg bool_false_ne_true] at h
        rw [hx2] at h
        rcases g with _ | gv
        · dsimp only at h
          obtain ⟨_, h2⟩ := okPair h
          rw [← h2]
          exact ⟨hd3, fun hI => hI⟩
        · dsimp only at h
          by_cases hv : name ∈ voidTags
          · rw [if_pos hv] at h
            obtain ⟨_, h2⟩ := okPair h
            rw [← h2]
            exact ⟨hd3, fun hI => hI⟩
          · rw [if_neg hv] at h
            obtain ⟨hr1, hr2⟩ := ihC name attrs start [] { st with stream := s3 } r st' h
            refine ⟨?_, hr2⟩
            rw [hr1]
            exact hd3
      · rw [if_pos rfl] at h
        rw [hx2] at h
        rcases g with _ | gv
        · dsimp only at h
          obtain ⟨_, h2⟩ := okPair h
          rw [← h2]
          exact ⟨hd3, fun hI => hI⟩
        · dsimp only at h
          obtain ⟨_, h2⟩ := okPair h
          rw [← h2]
          exact ⟨hd3, fun hI => hI⟩
    · -- parse_children
      intro name attrs start children st r st' h
      unfold parse_children at h
      by_cases hE : st.stream.isEof = true
      · rw [if_pos hE] at h
        obtain ⟨_, h2⟩ := okPair h
        rw [← h2]
        exact ⟨rfl, fun hI => hI⟩
      · rw [if_neg hE] at h
        dsimp only at h
        by_cases hsl : Stream.slice (Stream.skipWs st.stream) (Stream.skipWs st.stream).idx
            ((Stream.skipWs st.stream).idx + 2) = [60, 47]
        · rw [if_pos hsl] at h
          rcases hx2 : Stream.readIdent (Stream.advance 2 (Stream.skipWs st.stream))
              with ⟨io, s3⟩
          rw [hx2] at h
          have hd3 : s3.data = st.stream.data := by
            have hq := readIdent_data (Stream.advance 2 (Stream.skipWs st.stream))
            rw [hx2] at hq
            rw [hq]
            show (Stream.skipWs st.stream).data = st.stream.data
            exact skipWs_data st.stream
          rcases io with _ | ident
          · dsimp only at h
            obtain ⟨_, h2⟩ := okPair h
            rw [← h2]
            exact ⟨hd3, fun hI => hI⟩
          · dsimp only at h
            by_cases hne2 : ident ≠ name
            · rw [if_pos hne2] at h
              obtain ⟨_, h2⟩ := okPair h
              rw [← h2]
              exact ⟨hd3, fun hI => hI⟩
            · rw [if_neg hne2] at h
              rcases hx3 : Stream.expectSkip 62 s3 with ⟨g, s4⟩
              rw [hx3] at h
              dsimp only at h
              obtain ⟨_, h2⟩ := okPair h
              rw [← h2]
              have hd4 : s4.data = st.stream.data := by
                have hq := expectSkip_data 62 s3
                rw [hx3] at hq
                rw [hq, hd3]
              exact ⟨hd4, fun hI => hI⟩
        · rw [if_neg hsl] at h
          rcases hx4 : parse_single f { st with stream := Stream.skipWs st.stream }
              with _ | _ | ⟨no, st1⟩
          · rw [hx4] at h; simp at h
          · rw [hx4] at h; simp at h
          · rw [hx4] at h
            obtain ⟨hSd, hSI⟩ := ihS _ no st1 hx4
            have hSd2 : st1.stream.data = st.stream.data := by
              rw [hSd]
              exact skipWs_data st.stream
            rcases no with _ | n
            · dsimp only at h
              obtain ⟨_, h2⟩ := okPair h
              rw [← h2]
              exact ⟨hSd2, hSI⟩
            · dsimp only at h
              obtain ⟨hr1, hr2⟩ := ihC name attrs start (children ++ [n]) st1 r st' h
              refine ⟨?_, fun hI => hr2 (hSI hI)⟩
              rw [hr1]
              exact hSd2

theorem parse_loop_preserves : ∀ (f : Nat) (st st' : PState), parse_loop f st = .ok st' →
    st'.stream.data = st.stream.data ∧ (Inv st → Inv st') := by
  intro f
  induction f with
  | zero => intro st st' h; simp [parse_loop] at h
  | succ f ih =>
    intro st st' h
    unfold parse_loop at h
    by_cases hE : st.stream.isEof = true
    · rw [if_pos hE] at h
      injection h with h1
      rw [← h1]
      exact ⟨rfl, fun hI => hI⟩
    · rw [if_neg hE] at h
      rcases hx : parse_single f st with _ | _ | ⟨no, st1⟩
      · rw [hx] at h; simp at h
      · rw [hx] at h; simp at h
      · rw [hx] at h
        obtain ⟨hSd, hSI⟩ := (parse_preserves f).1 st no st1 hx
        rcases no with _ | n
        · dsimp only at h
          obtain ⟨hd, hI⟩ := ih st1 st' h
          exact ⟨by rw [hd, hSd], fun hIv => hI (hSI hIv)⟩
        · dsimp only at h
          obtain ⟨hd, hI2⟩ := ih { st1 with ast := st1.ast ++ [n] } st' h
          refine ⟨by rw [hd]; exact hSd, fun hIv => ?_⟩
          exact hI2 (hSI hIv)

/-- A finished parse keeps the whole input as its buffer. -/
theorem parseDoc_data (input : Bytes) (st : PState) (h : parseDoc input = .ok st) :
    st.stream.data = input :=
  (parse_loop_preserves _ _ _ h).1

/-- A finished parse satisfies the index invariant: the id and class maps
are the fold of the bookkeeping steps over the arena. -/
theorem parseDoc_inv (input : Bytes) (st : PState) (h : parseDoc input = .ok st) : Inv st :=
  (parse_loop_preserves _ _ _ h).2 ⟨rfl, rfl⟩

/-- The number of occurrences of a token in the emitted class tokens of a
node (zero for non-tags and tags without a class attribute). -/
def classCount (n : Node) (token : Bytes) : Nat :=
  match n with
  | .tag _ a _ _ =>
    match a.cls with
    | some c => (classTokens c).count token
    | none => 0
  | _ => 0

theorem pushFold_lookup : ∀ (toks : List Bytes) (m : List (Bytes × List Node)) (n : Node)
    (k : Bytes),
    ((lookupA (toks.foldl (fun mm tok => pushEntry mm tok n) m) k).getD [])
      = ((lookupA m k).getD []) ++ List.replicate (toks.count k) n
  | [], m, n, k => by simp
  | t :: ts, m, n, k => by
    have ih := pushFold_lookup ts (pushEntry m t n) n k
    simp only [List.foldl_cons] at ih ⊢
    rw [ih]
    by_cases hk : t = k
    · subst hk
      simp [pushEntry, insertA, lookupA, List.count_cons, List.replicate_succ]
    · simp [pushEntry, insertA, lookupA, hk, List.count_cons]

theorem classFold_lookup : ∀ (tags : List Node) (m : List (Bytes × List Node)) (k : Bytes),
    ((lookupA (tags.foldl classStep m) k).getD [])
      = ((lookupA m k).getD [])
          ++ (tags.map (fun n => List.replicate (classCount n k) n)).flatten
  | [], m, k => by simp
  | x :: xs, m, k => by
    have ih := classFold_lookup xs (classStep m x) k
    simp only [List.foldl_cons, List.map_cons, List.flatten_cons] at ih ⊢
    rw [ih]
    rcases x with ⟨nm, a, ch, r⟩ | b | c
    · rcases ha : a.cls with _ | c
      · simp [classStep, classCount, ha]
      · simp [classStep, classCount, ha, processClassFold, pushFold_lookup]
    · simp [classStep, classCount]
    · simp [classStep, classCount]

theorem idsFold_lookup_some : ∀ (tags : List Node) (m : List (Bytes × Node)) (k : Bytes)
    (v : Node), lookupA (tags.foldl idStep m) k = some v →
    (v ∈ tags ∧ tagHasId k v = true) ∨ lookupA m k = some v
  | [], _, _, _ => fun h => .inr h
  | x :: xs, m, k, v => fun h => by
    simp only [List.foldl_cons] at h
    rcases idsFold_lookup_some xs (idStep m x) k v h with ⟨hv, hid⟩ | hm
    · exact .inl ⟨List.mem_cons_of_mem _ hv, hid⟩
    · rcases x with ⟨nm, a, ch, r⟩ | b | c
      · rcases ha : a.id with _ | i
        · rw [show idStep m (.tag nm a ch r) = m by simp [idStep, ha]] at hm
          exact .inr hm
        · rw [show idStep m (.tag nm a ch r) = (i, .tag nm a ch r) :: m by
            simp [idStep, ha, insertA]] at hm
          by_cases hik : i = k
          · subst hik
            rw [show lookupA ((i, Node.tag nm a ch r) :: m) i
                  = some (Node.tag nm a ch r) by simp [lookupA]] at hm
            refine .inl ⟨?_, ?_⟩
            · rw [← Option.some_inj.mp hm]; exact List.mem_cons_self _ _
            · rw [← Option.some_inj.mp hm]; simp [tagHasId, ha]
          · rw [show lookupA ((i, Node.tag nm a ch r) :: m) k
                  = lookupA m k by simp [lookupA, hik]] at hm
            exact .inr hm
      · exact .inr hm
      · exact .inr hm

theorem idsFold_lookup_none : ∀ (tags : List Node) (m : List (Bytes × Node)) (k : Bytes),
    lookupA (tags.foldl idStep m) k = none →
    (∀ n ∈ tags, ¬ tagHasId k n = true) ∧ lookupA m k = none
  | [], _, _ => fun h => ⟨by simp, h⟩
  | x :: xs, m, k => fun h => by
    simp only [List.foldl_cons] at h
    obtain ⟨hxs, hm⟩ := idsFold_lookup_none xs (idStep m x) k h
    rcases x with ⟨nm, a, ch, r⟩ | b | c
    · rcases ha : a.id with _ | i
      · rw [show idStep m (.tag nm a ch r) = m by simp [idStep, ha]] at hm
        refine ⟨?_, hm⟩
        intro n hn
        rcases List.mem_cons.mp hn with hn | hn
        · subst hn; simp [tagHasId, ha]
        · exact hxs n hn
      · rw [show idStep m (.tag nm a ch r) = (i, .tag nm a ch r) :: m by
          simp [idStep, ha, insertA]] at hm
        by_cases hik : i = k
        · subst hik
          rw [show lookupA ((i, Node.tag nm a ch r) :: m) i
                = some (Node.tag nm a ch r) by simp [lookupA]] at hm
          exact absurd hm (by simp)
        · rw [show lookupA ((i, Node.tag nm a ch r) :: m) k
                = lookupA m k by simp [lookupA, hik]] at hm
          refine ⟨?_, hm⟩
          intro n hn
          rcases List.mem_cons.mp hn with hn | hn
          · subst hn; simp [tagHasId, ha, hik]
          · exact hxs n hn
    · refine ⟨?_, hm⟩
      intro n hn
      rcases List.mem_cons.mp hn with hn | hn
      · subst hn; simp [tagHasId]
      · exact hxs n hn
    · refine ⟨?_, hm⟩
      intro n hn
      rcases List.mem_cons.mp hn with hn | hn
      · subst hn; simp [tagHasId]
      · exact hxs n hn

/-- Claim C1 (amended): node handles enter the arena and the class index
in parse-completion order — children before their enclosing parent — not
in left-to-right encounter order; on the index path
`get_elements_by_class_name` returns, for every token, exactly the
arena in that completion order with each element repeated once per
occurrence of the token among its emitted class tokens. -/
theorem c1_class_index_order (input : Bytes) (st : PState) (token : Bytes)
    (h : parseDoc input = .ok st) :
    getByClassIndexed st token
      = (st.tags.map (fun n => List.replicate (classCount n token) n)).flatten := by
  have hcls := (parseDoc_inv input st h).2
  unfold getByClassIndexed
  rw [hcls]
  unfold buildClasses
  rw [classFold_lookup]
  simp [lookupA]

theorem c1_class_index_order_witness :
    getByClassIndexed (PState.init []) (strBytes "c")
      = (((PState.init []).tags).map
          (fun n => List.replicate (classCount n (strBytes "c")) n)).flatten :=
  c1_class_index_order [] (PState.init []) (strBytes "c") rfl

/-- Claim C1 counterexample: parsing `<a class="c"><b class="c c"></b></a>`
and querying class `c`, the index path returns the `b` handle twice and
then the `a` handle (completion order), the fallback path returns `b`
then `a` without the duplicate, while left-to-right document order with
per-token duplicates would be `a`, `b`, `b` — so neither path returns
document order and the two paths disagree. -/
theorem c1_counterexample :
    (getOk (parseDoc (strBytes "<a class=\"c\"><b class=\"c c\"></b></a>"))).map
        (fun st =>
          ((getByClassIndexed st (strBytes "c")).map nodeName,
           (getByClassScan st (strBytes "c")).map nodeName,
           (claimClassList st (strBytes "c")).map nodeName))
      = some ([some [98], some [98], some [97]], [some [98], some [97]],
              [some [97], some [98], some [98]])
    ∧ ([some [98], some [98], some [97]] : List (Option Bytes))
        ≠ [some [97], some [98], some [98]]
    ∧ ([some [98], some [97]] : List (Option Bytes))
        ≠ [some [97], some [98], some [98]] := by
  refine ⟨?_, by decide, by decide⟩
  simp [parseDoc, parseFuel, PState.init, parse_loop, parse_single, parse_tag, parse_tag_rest,
    parse_children, parseAttributes, parseAttributesAuxN, parseAttribute, readIdent, readIdentN,
    readTo, readToN, readWhile, readWhileN, Stream.skipWs, skipComment, skipCommentN, strBytes,
    Stream.isEof, Stream.currentU, Stream.currentCpy, Stream.advance, Stream.incr, Stream.next,
    Stream.slice, Stream.sliceU, Stream.sliceLen, Stream.sliceFrom, Stream.expectOneofSkip,
    Stream.expectSkip, Stream.expectSkipCond, isIdent, isStrictWhitespace, toUpperBytes,
    doctypeBytes, htmlBytes, idAttr, classAttr, voidTags, insertA, lookupA, pushEntry,
    processClassFold, classTokens, classTokensAuxN, getOk, Attrs.new,
    getByClassIndexed, getByClassScan, claimClassList, preorderList, preorderNode, nodeName,
    isClassMember]

/-- Claim C2 (amended): the id-index path and the linear-scan fallback of
`get_element_by_id` agree on every input in which at most one arena node
carries the queried id; when several elements carry the same id they
disagree in general, the index returning the last-completed carrier and
the scan the first one in arena order. -/
theorem c2_get_by_id_unique (input : Bytes) (idv : Bytes) (st : PState)
    (h : parseDoc input = .ok st)
    (huniq : ∀ m ∈ st.tags, ∀ n ∈ st.tags,
      tagHasId idv m = true → tagHasId idv n = true → m = n) :
    getByIdIndexed st idv = getByIdScan st idv := by
  have hids := (parseDoc_inv input st h).1
  unfold getByIdIndexed getByIdScan
  rw [hids]
  unfold buildIds
  rcases hl : lookupA (st.tags.foldl idStep []) idv with _ | v
  · obtain ⟨hno, _⟩ := idsFold_lookup_none st.tags [] idv hl
    exact (List.find?_eq_none.mpr hno).symm
  · rcases idsFold_lookup_some st.tags [] idv v hl with ⟨hv, hid⟩ | habs
    · have hsome : (st.tags.find? (tagHasId idv)).isSome := by
        rw [List.find?_isSome]
        exact ⟨v, hv, hid⟩
      obtain ⟨w, hw⟩ := Option.isSome_iff_exists.mp hsome
      rw [hw]
      have hwmem := List.mem_of_find?_eq_some hw
      have hwid := List.find?_some hw
      rw [huniq v hv w hwmem hid hwid]
    · exact absurd habs (by simp [lookupA])

theorem c2_get_by_id_unique_witness :
    getByIdIndexed (PState.init []) (strBytes "x")
      = getByIdScan (PState.init []) (strBytes "x") :=
  c2_get_by_id_unique [] (strBytes "x") (PState.init []) rfl
    (by intro m hm; simp [PState.init] at hm)

/-- Claim C2 counterexample: parsing `<a id="x"></a><b id="x"></b>` — the
same id on two elements — the id-index path resolves `x` to the `b`
element (last insert wins in the overwriting map) while the linear-scan
fallback resolves it to the `a` element (first match in arena order), so
the two paths do not agree on every input. -/
theorem c2_counterexample :
    (getOk (parseDoc (strBytes "<a id=\"x\"></a><b id=\"x\"></b>"))).map
        (fun st =>
          ((getByIdIndexed st (strBytes "x")).map nodeName,
           (getByIdScan st (strBytes "x")).map nodeName))
      = some (some (some [98]), some (some [97]))
    ∧ (some (some [98]) : Option (Option Bytes)) ≠ some (some [97]) := by
  refine ⟨?_, by decide⟩
  simp [parseDoc, parseFuel, PState.init, parse_loop, parse_single, parse_tag, parse_tag_rest,
    parse_children, parseAttributes, parseAttributesAuxN, parseAttribute, readIdent, readIdentN,
    readTo, readToN, readWhile, readWhileN, Stream.skipWs, skipComment, skipCommentN, strBytes,
    Stream.isEof, Stream.currentU, Stream.currentCpy, Stream.advance, Stream.incr, Stream.next,
    Stream.slice, Stream.sliceU, Stream.sliceLen, Stream.sliceFrom, Stream.expectOneofSkip,
    Stream.expectSkip, Stream.expectSkipCond, isIdent, isStrictWhitespace, toUpperBytes,
    doctypeBytes, htmlBytes, idAttr, classAttr, voidTags, insertA, lookupA, pushEntry,
    processClassFold, classTokens, classTokensAuxN, getOk, Attrs.new,
    getByIdIndexed, getByIdScan, tagHasId, nodeName, List.find?]

/-- Claim C3 (amended): after any finished parse, every handle stored in
the id index or the class index refers to a node present in the arena
(the node store), and only fully-parsed nodes are ever inserted; however
the indices are not pruned when an enclosing element later fails, so an
index entry may refer to an arena node that does not occur in the
finished document tree. -/
theorem c3_index_members (input : Bytes) (st : PState) (k : Bytes) (n x : Node)
    (l : List Node) (h : parseDoc input = .ok st) :
    (lookupA st.ids k = some n → n ∈ st.tags ∧ tagHasId k n = true)
    ∧ (lookupA st.classes k = some l → x ∈ l → x ∈ st.tags) := by
  obtain ⟨hids, hcls⟩ := parseDoc_inv input st h
  constructor
  · intro hn
    rw [hids] at hn
    unfold buildIds at hn
    rcases idsFold_lookup_some st.tags [] k n hn with hok | habs
    · exact hok
    · exact absurd habs (by simp [lookupA])
  · intro hl hx
    rw [hcls] at hl
    have := classFold_lookup st.tags [] k
    unfold buildClasses at hl
    rw [hl] at this
    simp only [lookupA, Option.getD_some, Option.getD_none, List.nil_append] at this
    rw [this] at hx
    simp only [List.mem_flatten, List.mem_map] at hx
    obtain ⟨lx, ⟨m, hm, hrep⟩, hxin⟩ := hx
    rw [← hrep] at hxin
    rw [List.eq_of_mem_replicate hxin]
    exact hm

theorem c3_index_members_witness :
    (lookupA (PState.init []).ids (strBytes "x") = some (Node.raw [])
        → Node.raw [] ∈ (PState.init []).tags ∧ tagHasId (strBytes "x") (Node.raw []) = true)
    ∧ (lookupA (PState.init []).classes (strBytes "x") = some []
        → Node.raw [] ∈ ([] : List Node) → Node.raw [] ∈ (PState.init []).tags) :=
  c3_index_members [] (PState.init []) (strBytes "x") (Node.raw []) (Node.raw []) [] rfl

/-- Claim C3 counterexample: parsing `<a><b id="x"></b></c>` — where the
inner `b` parses completely but the enclosing `a` then fails on the
mismatched end tag `</c>` — leaves an id-index entry for `x` that
resolves to the `b` node even though that node occurs nowhere in the
finished document tree, so entries for children of a failed element do
remain. -/
theorem c3_counterexample :
    (getOk (parseDoc (strBytes "<a><b id=\"x\"></b></c>"))).map
        (fun st =>
          (lookupA st.ids (strBytes "x")).map
            (fun n => (nodeName n, listContains st.ast n)))
      = some (some (some [98], false)) := by
  simp [parseDoc, parseFuel, PState.init, parse_loop, parse_single, parse_tag, parse_tag_rest,
    parse_children, parseAttributes, parseAttributesAuxN, parseAttribute, readIdent, readIdentN,
    readTo, readToN, readWhile, readWhileN, Stream.skipWs, skipComment, skipCommentN, strBytes,
    Stream.isEof, Stream.currentU, Stream.currentCpy, Stream.advance, Stream.incr, Stream.next,
    Stream.slice, Stream.sliceU, Stream.sliceLen, Stream.sliceFrom, Stream.expectOneofSkip,
    Stream.expectSkip, Stream.expectSkipCond, isIdent, isStrictWhitespace, toUpperBytes,
    doctypeBytes, htmlBytes, idAttr, classAttr, voidTags, insertA, lookupA, pushEntry,
    processClassFold, classTokens, classTokensAuxN, getOk, Attrs.new,
    nodeName, listContains, nodeContains, beqNode, beqNodeList]

/-- Whether `r` occurs in `input` as a contiguous slice that begins at an
opening `<` byte: a bounded search over all candidate start and stop
positions. -/
def spanWitB (input r : Bytes) : Bool :=
  (List.range (input.length + 1)).any (fun start =>
    (input.get? start == some 60) &&
    (List.range (input.length + 1)).any (fun stop =>
      r == Stream.slice { data := input, idx := 0 } start stop))

mutual

/-- Every tag node of the tree carries a raw span that is a contiguous
slice of `input` beginning at a `<` byte. -/
def tagSpansOkB (input : Bytes) : Node → Bool
  | .tag _ _ ch r => spanWitB input r && tagSpansListOkB input ch
  | .raw _ => true
  | .comment _ => true

/-- `tagSpansOkB` over a list of trees. -/
def tagSpansListOkB (input : Bytes) : List Node → Bool
  | [] => true
  | n :: l => tagSpansOkB input n && tagSpansListOkB input l

end

theorem spanWitB_intro (input r : Bytes) (start stop : Nat)
    (h60 : input.get? start = some 60)
    (hr : r = Stream.slice { data := input, idx := 0 } start stop) :
    spanWitB input r = true := by
  have hstart : start < input.length := by
    rcases Nat.lt_or_ge start input.length with hlt | hge
    · exact hlt
    · rw [List.get?_eq_none.mpr hge] at h60; cases h60
  have hslice : Stream.slice { data := input, idx := 0 } start stop
      = Stream.slice { data := input, idx := 0 } start (min stop input.length) := by
    unfold Stream.slice
    dsimp only
    rcases Nat.le_total stop input.length with hle | hle
    · rw [Nat.min_eq_left hle]
    · rw [Nat.min_eq_right hle]
      rw [List.take_of_length_le (by simp; omega), List.take_of_length_le (by simp)]
  unfold spanWitB
  rw [List.any_eq_true]
  refine ⟨start, List.mem_range.mpr (by omega), ?_⟩
  rw [Bool.and_eq_true]
  refine ⟨beq_iff_eq.mpr h60, ?_⟩
  rw [List.any_eq_true]
  refine ⟨min stop input.length, List.mem_range.mpr (by omega), ?_⟩
  rw [hr, hslice]
  exact beq_self_eq_true _

theorem tagSpansListOkB_append (input : Bytes) : ∀ (l₁ l₂ : List Node),
    tagSpansListOkB input (l₁ ++ l₂)
      = (tagSpansListOkB input l₁ && tagSpansListOkB input l₂)
  | [], l₂ => by simp [tagSpansListOkB]
  | n :: l₁, l₂ => by
    simp [tagSpansListOkB, tagSpansListOkB_append input l₁ l₂, Bool.and_assoc]

theorem parse_spans : ∀ f : Nat,
    (∀ st r st', parse_single f st = .ok (r, st') →
      (tagSpansListOkB st.stream.data st.tags = true →
        tagSpansListOkB st.stream.data st'.tags = true)
      ∧ (∀ n, r = some n → tagSpansOkB st.stream.data n = true))
    ∧ (∀ st r st', parse_tag f true st = .ok (r, st') →
      st.stream.data.get? st.stream.idx = some 60 →
      (tagSpansListOkB st.stream.data st.tags = true →
        tagSpansListOkB st.stream.data st'.tags = true)
      ∧ (∀ n, r = some n → tagSpansOkB st.stream.data n = true))
    ∧ (∀ name attrs start st r st', parse_tag_rest f name attrs start st = .ok (r, st') →
      st.stream.data.get? start = some 60 →
      (tagSpansListOkB st.stream.data st.tags = true →
        tagSpansListOkB st.stream.data st'.tags = true)
      ∧ (∀ n, r = some n → tagSpansOkB st.stream.data n = true))
    ∧ (∀ name attrs start children st r st',
        parse_children f name attrs start children st = .ok (r, st') →
      st.stream.data.get? start = some 60 →
      tagSpansListOkB st.stream.data children = true →
      (tagSpansListOkB st.stream.data st.tags = true →
        tagSpansListOkB st.stream.data st'.tags = true)
      ∧ (∀ n, r = some n → tagSpansOkB st.stream.data n = true)) := by
  intro f
  induction f with
  | zero =>
    refine ⟨?_, ?_, ?_, ?_⟩
    · intro st r st' h; simp [parse_single] at h
    · intro st r st' h; simp [parse_tag] at h
    · intro name attrs start st r st' h; simp [parse_tag_rest] at h
    · intro name attrs start children st r st' h; simp [parse_children] at h
  | succ f ih =>
    obtain ⟨ihS, ihT, ihR, ihC⟩ := ih
    refine ⟨?_, ?_, ?_, ?_⟩
    · -- parse_single
      intro st r st' h
      unfold parse_single at h
      dsimp only at h
      rcases hg : (Stream.skipWs st.stream).data.get? (Stream.skipWs st.stream).idx with _ | ch
      · rw [hg] at h
        dsimp only at h
        obtain ⟨h1, h2⟩ := okPair h
        rw [← h2]
        exact ⟨fun ht => ht, fun n hn => by rw [← h1] at hn; simp at hn⟩
      · rw [hg] at h
        dsimp only at h
        by_cases hch : ch = 60
        · rw [if_pos hch] at h
          subst hch
          rcases hT : parse_tag f true { st with stream := Stream.skipWs st.stream }
              with _ | _ | ⟨nodeOpt, st1⟩
          · rw [hT] at h; simp at h
          · rw [hT] at h; simp at h
          · rw [hT] at h
            obtain ⟨hTt, hTn⟩ := ihT _ nodeOpt st1 hT hg
            have hws : (Stream.skipWs st.stream).data = st.stream.data := skipWs_data st.stream
            rw [hws] at hTt hTn
            rcases nodeOpt with _ | node
            · dsimp only at h
              obtain ⟨h1, h2⟩ := okPair h
              rw [← h2]
              exact ⟨hTt, fun n hn => by rw [← h1] at hn; simp at hn⟩
            · have hnode : tagSpansOkB st.stream.data node = true := hTn node rfl
              rcases node with ⟨nm, nattrs, nch, nraw⟩ | nb | nb
              · dsimp only at h
                obtain ⟨h1, h2⟩ := okPair h
                rw [← h2]
                refine ⟨fun ht => ?_, fun n hn => by rw [← h1] at hn; rw [← Option.some_inj.mp hn]; exact hnode⟩
                rw [tagSpansListOkB_append]
                rw [hTt ht]
                simp [tagSpansListOkB, hnode]
              · dsimp only at h
                obtain ⟨h1, h2⟩ := okPair h
                rw [← h2]
                refine ⟨fun ht => ?_, fun n hn => by rw [← h1] at hn; rw [← Option.some_inj.mp hn]; exact hnode⟩
                rw [tagSpansListOkB_append]
                rw [hTt ht]
                simp [tagSpansListOkB, hnode]
              · dsimp only at h
                obtain ⟨h1, h2⟩ := okPair h
                rw [← h2]
                refine ⟨fun ht => ?_, fun n hn => by rw [← h1] at hn; rw [← Option.some_inj.mp hn]; exact hnode⟩
                rw [tagSpansListOkB_append]
                rw [hTt ht]
                simp [tagSpansListOkB, hnode]
        · rw [if_neg hch] at h
          rcases hR : Stream.readTo [60] (Stream.skipWs st.stream) with ⟨txt, s2⟩
          rw [hR] at h
          dsimp only at h
          obtain ⟨h1, h2⟩ := okPair h
          rw [← h2]
          refine ⟨fun ht => ?_, fun n hn => ?_⟩
          · dsimp only
            rw [tagSpansListOkB_append, ht]
            simp [tagSpansListOkB, tagSpansOkB]
          · rw [← h1] at hn
            rw [← Option.some_inj.mp hn]
            simp [tagSpansOkB]
    · -- parse_tag (skipCurrent = true)
      intro st r st' h h60
      unfold parse_tag at h
      dsimp only at h
      rw [if_pos rfl] at h
      rcases hnx : Stream.next st.stream with ⟨nopt, s0⟩
      rw [hnx] at h
      have hd0 : s0.data = st.stream.data := by
        have hq := next_data st.stream
        rw [hnx] at hq
        exact hq
      rcases nopt with _ | c0
      · dsimp only at h
        obtain ⟨h1, h2⟩ := okPair h
        rw [← h2]
        exact ⟨fun ht => ht, fun n hn => by rw [← h1] at hn; simp at hn⟩
      · dsimp only at h
        rcases hx1 : Stream.expectSkipCond 33 s0 with ⟨md, s1⟩
        rw [hx1] at h
        have hd1 : s1.data = st.stream.data := by
          have hq := expectSkipCond_data 33 s0
          rw [hx1] at hq
          rw [hq, hd0]
        dsimp only at h
        cases md
        · rw [if_neg bool_false_ne_true] at h
          rcases hx2 : Stream.readIdent s1 with ⟨nmo, s2⟩
          rw [hx2] at h
          have hd2 : s2.data = st.stream.data := by
            have hq := readIdent_data s1
            rw [hx2] at hq
            rw [hq, hd1]
          rcases nmo with _ | name
          · dsimp only at h
            obtain ⟨h1, h2⟩ := okPair h
            rw [← h2]
            exact ⟨fun ht => ht, fun n hn => by rw [← h1] at hn; simp at hn⟩
          · dsimp only at h
            rcases hx3 : parseAttributes s2 with _ | ⟨attrs, s3⟩
            · rw [hx3] at h; simp at h
            · rw [hx3] at h
              dsimp only at h
              have hd3 : s3.data = st.stream.data := by
                rw [(parseAttributesAuxN_facts _ _ _ _ _ hx3).1, hd2]
              obtain ⟨hrt, hrn⟩ := ihR name attrs st.stream.idx { st with stream := s3 } r st' h
                (by dsimp only; rw [hd3]; exact h60)
              dsimp only at hrt hrn
              rw [hd3] at hrt hrn
              exact ⟨hrt, hrn⟩
        · rw [if_pos rfl] at h
          by_cases hcm : Stream.slice s1 s1.idx (s1.idx + 2) = [45, 45]
          · rw [if_pos hcm] at h
            rcases hx4 : Stream.skipComment (Stream.advance 2 s1) with ⟨copt, s3⟩
            rw [hx4] at h
            rcases copt with _ | c
            · dsimp only at h
              obtain ⟨h1, h2⟩ := okPair h
              rw [← h2]
              exact ⟨fun ht => ht, fun n hn => by rw [← h1] at hn; simp at hn⟩
            · dsimp only at h
              obtain ⟨h1, h2⟩ := okPair h
              rw [← h2]
              refine ⟨fun ht => ht, fun n hn => ?_⟩
              rw [← h1] at hn
              rw [← Option.some_inj.mp hn]
              simp [tagSpansOkB]
          · rw [if_neg hcm] at h
            rcases hx5 : Stream.readIdent s1 with ⟨nmo, s2⟩
            rw [hx5] at h
            have hd2 : s2.data = st.stream.data := by
              have hq := readIdent_data s1
              rw [hx5] at hq
              rw [hq, hd1]
            rcases nmo with _ | nm
            · dsimp only at h
              obtain ⟨h1, h2⟩ := okPair h
              rw [← h2]
              exact ⟨fun ht => ht, fun n hn => by rw [← h1] at hn; simp at hn⟩
            · dsimp only at h
              by_cases hdoc : toUpperBytes nm = doctypeBytes
              · rw [if_pos hdoc] at h
                rcases hx6 : Stream.readIdent (Stream.skipWs s2) with ⟨iopt, s4⟩
                rw [hx6] at h
                rcases iopt with _ | i
                · dsimp only at h
                  simp only [Bool.false_eq_true, if_false] at h
                  obtain ⟨h1, h2⟩ := okPair h
                  rw [← h2]
                  exact ⟨fun ht => ht, fun n hn => by rw [← h1] at hn; simp at hn⟩
                · dsimp only at h
                  by_cases h5 : (toUpperBytes i == htmlBytes) = true
                  · rw [if_pos h5] at h
                    rcases hx7 : Stream.expectSkip 62 (Stream.skipWs s4) with ⟨gopt, s6⟩
                    rw [hx7] at h
                    dsimp only at h
                    obtain ⟨h1, h2⟩ := okPair h
                    rw [← h2]
                    exact ⟨fun ht => ht, fun n hn => by rw [← h1] at hn; simp at hn⟩
                  · rw [if_neg h5] at h
                    obtain ⟨h1, h2⟩ := okPair h
                    rw [← h2]
                    exact ⟨fun ht => ht, fun n hn => by rw [← h1] at hn; simp at hn⟩
              · rw [if_neg hdoc] at h
                obtain ⟨h1, h2⟩ := okPair h
                rw [← h2]
                exact ⟨fun ht => ht, fun n hn => by rw [← h1] at hn; simp at hn⟩
    · -- parse_tag_rest
      intro name attrs start st r st' h h60
      unfold parse_tag_rest at h
      dsimp only at h
      rcases hx1 : Stream.expectSkipCond 47 st.stream with ⟨sc, s1⟩
      rw [hx1] at h
      have hd1 : s1.data = st.stream.data := by
        have hq := expectSkipCond_data 47 st.stream
        rw [hx1] at hq
        exact hq
      dsimp only at h
      rcases hx2 : Stream.expectSkip 62 (Stream.skipWs s1) with ⟨g, s3⟩
      have hd3 : s3.data = st.stream.data := by
        have hq := expectSkip_data 62 (Stream.skipWs s1)
        rw [hx2] at hq
        rw [hq, skipWs_data, hd1]
      have hsp : spanWitB st.stream.data (Stream.sliceFrom s3 start) = true := by
        refine spanWitB_intro st.stream.data _ start s3.idx h60 ?_
        unfold Stream.sliceFrom Stream.slice
        dsimp only
        rw [hd3]
      cases sc
      · rw [if_neg bool_false_ne_true] at h
        rw [hx2] at h
        rcases g with _ | gv
        · dsimp only at h
          obtain ⟨h1, h2⟩ := okPair h
          rw [← h2]
          exact ⟨fun ht => ht, fun n hn => by rw [← h1] at hn; simp at hn⟩
        · dsimp only at h
          by_cases hv : name ∈ voidTags
          · rw [if_pos hv] at h
            obtain ⟨h1, h2⟩ := okPair h
            rw [← h2]
            refine ⟨fun ht => ht, fun n hn => ?_⟩
            rw [← h1] at hn
            rw [← Option.some_inj.mp hn]
            simp [tagSpansOkB, tagSpansListOkB, hsp]
          · rw [if_neg hv] at h
            obtain ⟨hct, hcn⟩ := ihC name attrs start [] { st with stream := s3 } r st' h
              (by dsimp only; rw [hd3]; exact h60)
              (by dsimp only; rw [hd3]; rfl)
            dsimp only at hct hcn
            rw [hd3] at hct hcn
            exact ⟨hct, hcn⟩
      · rw [if_pos rfl] at h
        rw [hx2] at h
        rcases g with _ | gv
        · dsimp only at h
          obtain ⟨h1, h2⟩ := okPair h
          rw [← h2]
          exact ⟨fun ht => ht, fun n hn => by rw [← h1] at hn; simp at hn⟩
        · dsimp only at h
          obtain ⟨h1, h2⟩ := okPair h
          rw [← h2]
          refine ⟨fun ht => ht, fun n hn => ?_⟩
          rw [← h1] at hn
          rw [← Option.some_inj.mp hn]
          simp [tagSpansOkB, tagSpansListOkB, hsp]
    · -- parse_children
      intro name attrs start children st r st' h h60 hch
      unfold parse_children at h
      by_cases hE : st.stream.isEof = true
      · rw [if_pos hE] at h
        obtain ⟨h1, h2⟩ := okPair h
        rw [← h2]
        refine ⟨fun ht => ht, fun n hn => ?_⟩
        rw [← h1] at hn
        rw [← Option.some_inj.mp hn]
        have hsp : spanWitB st.stream.data (Stream.sliceFrom st.stream start) = true := by
          refine spanWitB_intro st.stream.data _ start st.stream.idx h60 ?_
          unfold Stream.sliceFrom Stream.slice
          dsimp only
        simp [tagSpansOkB, hsp, hch]
      · rw [if_neg hE] at h
        dsimp only at h
        by_cases hsl : Stream.slice (Stream.skipWs st.stream) (Stream.skipWs st.stream).idx
            ((Stream.skipWs st.stream).idx + 2) = [60, 47]
        · rw [if_pos hsl] at h
          rcases hx2 : Stream.readIdent (Stream.advance 2 (Stream.skipWs st.stream))
              with ⟨io, s3⟩
          rw [hx2] at h
          have hd3 : s3.data = st.stream.data := by
            have hq := readIdent_data (Stream.advance 2 (Stream.skipWs st.stream))
            rw [hx2] at hq
            rw [hq]
            show (Stream.skipWs st.stream).data = st.stream.data
            exact skipWs_data st.stream
          rcases io with _ | ident
          · dsimp only at h
            obtain ⟨h1, h2⟩ := okPair h
            rw [← h2]
            exact ⟨fun ht => ht, fun n hn => by rw [← h1] at hn; simp at hn⟩
          · dsimp only at h
            by_cases hne2 : ident ≠ name
            · rw [if_pos hne2] at h
              obtain ⟨h1, h2⟩ := okPair h
              rw [← h2]
              exact ⟨fun ht => ht, fun n hn => by rw [← h1] at hn; simp at hn⟩
            · rw [if_neg hne2] at h
              rcases hx3 : Stream.expectSkip 62 s3 with ⟨g, s4⟩
              rw [hx3] at h
              dsimp only at h
              obtain ⟨h1, h2⟩ := okPair h
              rw [← h2]
              have hd4 : s4.data = st.stream.data := by
                have hq := expectSkip_data 62 s3
                rw [hx3] at hq
                rw [hq, hd3]
              refine ⟨fun ht => ht, fun n hn => ?_⟩
              rw [← h1] at hn
              rw [← Option.some_inj.mp hn]
              have hsp : spanWitB st.stream.data (Stream.sliceFrom s4 start) = true := by
                refine spanWitB_intro st.stream.data _ start s4.idx h60 ?_
                unfold Stream.sliceFrom Stream.slice
                dsimp only
                rw [hd4]
              simp [tagSpansOkB, hsp, hch]
        · rw [if_neg hsl] at h
          rcases hx4 : parse_single f { st with stream := Stream.skipWs st.stream }
              with _ | _ | ⟨no, st1⟩
          · rw [hx4] at h; simp at h
          · rw [hx4] at h; simp at h
          · rw [hx4] at h
            obtain ⟨hSt, hSn⟩ := ihS _ no st1 hx4
            have hws : (Stream.skipWs st.stream).data = st.stream.data := skipWs_data st.stream
            dsimp only at hSt hSn
            rw [hws] at hSt hSn
            have hd1 : st1.stream.data = st.stream.data := by
              rw [((parse_preserves f).1 _ no st1 hx4).1]
              exact hws
            rcases no with _ | n
            · dsimp only at h
              obtain ⟨h1, h2⟩ := okPair h
              rw [← h2]
              exact ⟨hSt, fun n hn => by rw [← h1] at hn; simp at hn⟩
            · dsimp only at h
              obtain ⟨hct, hcn⟩ := ihC name attrs start (children ++ [n]) st1 r st' h
                (by rw [hd1]; exact h60)
                (by
                  rw [hd1, tagSpansListOkB_append, hch]
                  simp [tagSpansListOkB, hSn n rfl])
              rw [hd1] at hct hcn
              exact ⟨fun ht => hct (hSt ht), hcn⟩

theorem parse_loop_spans : ∀ (f : Nat) (st st' : PState), parse_loop f st = .ok st' →
    tagSpansListOkB st.stream.data st.tags = true →
    tagSpansListOkB st.stream.data st'.tags = true := by
  intro f
  induction f with
  | zero => intro st st' h; simp [parse_loop] at h
  | succ f ih =>
    intro st st' h ht
    unfold parse_loop at h
    by_cases hE : st.stream.isEof = true
    · rw [if_pos hE] at h
      injection h with h
      rw [← h]
      exact ht
    · rw [if_neg hE] at h
      rcases hx : parse_single f st with _ | _ | ⟨no, st1⟩
      · rw [hx] at h; simp at h
      · rw [hx] at h; simp at h
      · rw [hx] at h
        obtain ⟨hSt, _⟩ := (parse_spans f).1 st no st1 hx
        have hd1 : st1.stream.data = st.stream.data := ((parse_preserves f).1 st no st1 hx).1
        rcases no with _ | n
        · dsimp only at h
          have := ih st1 st' h (by rw [hd1]; exact hSt ht)
          rw [hd1] at this
          exact this
        · dsimp only at h
          have := ih { st1 with ast := st1.ast ++ [n] } st' h
            (by dsimp only; rw [hd1]; exact hSt ht)
          dsimp only at this
          rw [hd1] at this
          exact this

/-- Claim C5 (amended, span part): after a finished parse, every tag node
in the arena — hence every parsed tag node, top-level or nested — carries
a raw span that is a contiguous slice of the original input beginning at
an opening `<` byte. -/
theorem c5_tag_spans (input : Bytes) (st : PState) (h : parseDoc input = .ok st) :
    tagSpansListOkB input st.tags = true := by
  have := parse_loop_spans (parseFuel input) (PState.init input) st h rfl
  exact this

theorem c5_tag_spans_witness : tagSpansListOkB [] (PState.init []).tags = true :=
  c5_tag_spans [] (PState.init []) rfl

/-- Claim C5 counterexample: parsing the two-byte input of a space byte
followed by `x` stops at position 2 having produced the single raw node
`x`; the concatenation of the top-level raw spans is `x`, which is not
the length-2 prefix of the input and indeed no prefix of it at all,
because the skipped leading whitespace appears in no span. -/
theorem c5_counterexample :
    (getOk (parseDoc (strBytes " x"))).map (fun st => (concatRaws st.ast, st.stream.idx))
      = some ([120], 2)
    ∧ strBytes " x" = [32, 120]
    ∧ ¬ [120] <+: [32, 120] := by
  refine ⟨?_, by decide, by decide⟩
  simp [parseDoc, parseFuel, PState.init, parse_loop, parse_single, parse_tag, parse_tag_rest,
    parse_children, parseAttributes, parseAttributesAuxN, parseAttribute, readIdent, readIdentN,
    readTo, readToN, readWhile, readWhileN, Stream.skipWs, skipComment, skipCommentN, strBytes,
    Stream.isEof, Stream.currentU, Stream.currentCpy, Stream.advance, Stream.incr, Stream.next,
    Stream.slice, Stream.sliceU, Stream.sliceLen, Stream.sliceFrom, Stream.expectOneofSkip,
    Stream.expectSkip, Stream.expectSkipCond, isIdent, isStrictWhitespace, toUpperBytes,
    doctypeBytes, htmlBytes, idAttr, classAttr, voidTags, insertA, lookupA, pushEntry,
    processClassFold, classTokens, classTokensAuxN, getOk, Attrs.new,
    concatRaws, nodeRaw]

theorem get_some_lt {l : Bytes} {i c : Nat} (h : l.get? i = some c) : i < l.length := by
  rcases Nat.lt_or_ge i l.length with h2 | h2
  · exact h2
  · rw [List.get?_eq_none.mpr h2] at h; cases h

theorem next_some {s : Stream} {c : Nat} {s' : Stream} (h : Stream.next s = (some c, s')) :
    s'.idx = s.idx + 1 ∧ s'.data = s.data ∧ s.data.get? s.idx = some c := by
  unfold Stream.next at h
  rcases hg : s.data.get? s.idx with _ | c0 <;> rw [hg] at h
  · cases h
  · simp only [Prod.mk.injEq] at h
    obtain ⟨h1, h2⟩ := h
    injection h1 with h1
    subst h1
    rw [← h2]
    exact ⟨rfl, rfl, rfl⟩

theorem next_none {s : Stream} {s' : Stream} (h : Stream.next s = (none, s')) :
    s' = s ∧ s.data.length ≤ s.idx := by
  unfold Stream.next at h
  rcases hg : s.data.get? s.idx with _ | c0 <;> rw [hg] at h
  · simp at h
    rw [← h]
    exact ⟨rfl, List.get?_eq_none.mp hg⟩
  · cases h

theorem readTo_strict (t : List Nat) (s : Stream) (hlt : s.idx < s.data.length)
    (hc : Stream.currentU s ∉ t) : s.idx + 1 ≤ ((Stream.readTo t s).2).idx := by
  unfold Stream.readTo
  rcases hn : s.data.length - s.idx with _ | n
  · omega
  · unfold Stream.readToN
    rw [if_neg (by simp [Stream.isEof]; omega), if_neg hc]
    have := (Stream.readToN_facts n t s.idx s.incr).2
    simpa [Stream.incr, Stream.advance] using this

theorem parse_progress : ∀ f : Nat,
    (∀ st r st', parse_single f st = .ok (r, st') →
      st.stream.idx ≤ st'.stream.idx
      ∧ (st.stream.idx < st.stream.data.length → st.stream.idx < st'.stream.idx)
      ∧ (∀ n, r = some n → st.stream.idx < st'.stream.idx))
    ∧ (∀ st r st', parse_tag f true st = .ok (r, st') →
      st.stream.idx ≤ st'.stream.idx
      ∧ (st.stream.idx < st.stream.data.length → st.stream.idx < st'.stream.idx))
    ∧ (∀ name attrs start st r st', parse_tag_rest f name attrs start st = .ok (r, st') →
      st.stream.idx ≤ st'.stream.idx)
    ∧ (∀ name attrs start children st r st',
        parse_children f name attrs start children st = .ok (r, st') →
      st.stream.idx ≤ st'.stream.idx) := by
  intro f
  induction f with
  | zero =>
    refine ⟨?_, ?_, ?_, ?_⟩
    · intro st r st' h; simp [parse_single] at h
    · intro st r st' h; simp [parse_tag] at h
    · intro name attrs start st r st' h; simp [parse_tag_rest] at h
    · intro name attrs start children st r st' h; simp [parse_children] at h
  | succ f ih =>
    obtain ⟨ihS, ihT, ihR, ihC⟩ := ih
    refine ⟨?_, ?_, ?_, ?_⟩
    · -- parse_single
      intro st r st' h
      unfold parse_single at h
      dsimp only at h
      have hwd : (Stream.skipWs st.stream).data = st.stream.data := skipWs_data st.stream
      have hwi : st.stream.idx ≤ (Stream.skipWs st.stream).idx := skipWs_idx st.stream
      rcases hg : (Stream.skipWs st.stream).data.get? (Stream.skipWs st.stream).idx with _ | ch
      · rw [hg] at h
        dsimp only at h
        obtain ⟨h1, h2⟩ := okPair h
        rw [← h2]
        dsimp only
        have hlen : st.stream.data.length ≤ (Stream.skipWs st.stream).idx := by
          have := List.get?_eq_none.mp hg
          rw [hwd] at this
          exact this
        refine ⟨hwi, fun hlt => by omega, fun n hn => by rw [← h1] at hn; simp at hn⟩
      · rw [hg] at h
        dsimp only at h
        have hchlt : (Stream.skipWs st.stream).idx < st.stream.data.length := by
          have := get_some_lt hg
          rw [hwd] at this
          exact this
        by_cases hch : ch = 60
        · rw [if_pos hch] at h
          rcases hT : parse_tag f true { st with stream := Stream.skipWs st.stream }
              with _ | _ | ⟨nodeOpt, st1⟩
          · rw [hT] at h; simp at h
          · rw [hT] at h; simp at h
          · rw [hT] at h
            obtain ⟨hTm, hTs⟩ := ihT _ nodeOpt st1 hT
            dsimp only at hTm hTs
            have hstrict : (Stream.skipWs st.stream).idx < st1.stream.idx :=
              hTs (by rw [hwd]; exact hchlt)
            rcases nodeOpt with _ | node
            · dsimp only at h
              obtain ⟨h1, h2⟩ := okPair h
              rw [← h2]
              exact ⟨by omega, fun _ => by omega,
                fun n hn => by rw [← h1] at hn; simp at hn⟩
            · rcases node with ⟨nm, nattrs, nch, nraw⟩ | nb | nb
              · dsimp only at h
                obtain ⟨h1, h2⟩ := okPair h
                rw [← h2]
                dsimp only
                exact ⟨by omega, fun _ => by omega, fun n hn => by omega⟩
              · dsimp only at h
                obtain ⟨h1, h2⟩ := okPair h
                rw [← h2]
                dsimp only
                exact ⟨by omega, fun _ => by omega, fun n hn => by omega⟩
              · dsimp only at h
                obtain ⟨h1, h2⟩ := okPair h
                rw [← h2]
                dsimp only
                exact ⟨by omega, fun _ => by omega, fun n hn => by omega⟩
        · rw [if_neg hch] at h
          rcases hR : Stream.readTo [60] (Stream.skipWs st.stream) with ⟨txt, s2⟩
          rw [hR] at h
          dsimp only at h
          obtain ⟨h1, h2⟩ := okPair h
          rw [← h2]
          dsimp only
          have hstrict : (Stream.skipWs st.stream).idx + 1 ≤ s2.idx := by
            have := readTo_strict [60] (Stream.skipWs st.stream)
              (by rw [hwd]; exact hchlt)
              (by
                intro hmem
                apply hch
                have hcur : Stream.currentU (Stream.skipWs st.stream) = ch := by
                  unfold Stream.currentU
                  rw [List.getD_eq_getD_get?, hg]
                  rfl
                rw [hcur] at hmem
                simpa using hmem)
            rw [hR] at this
            exact this
          exact ⟨by omega, fun _ => by omega, fun n hn => by omega⟩
    · -- parse_tag
      intro st r st' h
      unfold parse_tag at h
      dsimp only at h
      rw [if_pos rfl] at h
      rcases hnx : Stream.next st.stream with ⟨nopt, s0⟩
      rw [hnx] at h
      rcases nopt with _ | c0
      · obtain ⟨hs0, hlen⟩ := next_none hnx
        dsimp only at h
        obtain ⟨h1, h2⟩ := okPair h
        rw [← h2]
        dsimp only
        subst hs0
        exact ⟨le_refl _, fun hlt => by omega⟩
      · obtain ⟨hi0, hd0, hg0⟩ := next_some hnx
        dsimp only at h
        rcases hx1 : Stream.expectSkipCond 33 s0 with ⟨md, s1⟩
        rw [hx1] at h
        have hi1 : s0.idx ≤ s1.idx := by
          have hq := expectSkipCond_idx 33 s0
          rw [hx1] at hq
          exact hq
        dsimp only at h
        cases md
        · rw [if_neg bool_false_ne_true] at h
          rcases hx2 : Stream.readIdent s1 with ⟨nmo, s2⟩
          rw [hx2] at h
          have hi2 : s1.idx ≤ s2.idx := by
            have hq := readIdent_idx s1
            rw [hx2] at hq
            exact hq
          rcases nmo with _ | name
          · dsimp only at h
            obtain ⟨h1, h2⟩ := okPair h
            rw [← h2]
            dsimp only
            exact ⟨by omega, fun _ => by omega⟩
          · dsimp only at h
            rcases hx3 : parseAttributes s2 with _ | ⟨attrs, s3⟩
            · rw [hx3] at h; simp at h
            · rw [hx3] at h
              dsimp only at h
              have hi3 : s2.idx ≤ s3.idx := (parseAttributesAuxN_facts _ _ _ _ _ hx3).2
              have hrm := ihR name attrs st.stream.idx { st with stream := s3 } r st' h
              dsimp only at hrm
              exact ⟨by omega, fun _ => by omega⟩
        · rw [if_pos rfl] at h
          by_cases hcm : Stream.slice s1 s1.idx (s1.idx + 2) = [45, 45]
          · rw [if_pos hcm] at h
            rcases hx4 : Stream.skipComment (Stream.advance 2 s1) with ⟨copt, s3⟩
            rw [hx4] at h
            have hi3 : s1.idx + 2 ≤ s3.idx := by
              have hq := skipComment_idx (Stream.advance 2 s1)
              rw [hx4] at hq
              simpa [Stream.advance] using hq
            rcases copt with _ | c
            · dsimp only at h
              obtain ⟨h1, h2⟩ := okPair h
              rw [← h2]
              dsimp only
              exact ⟨by omega, fun _ => by omega⟩
            · dsimp only at h
              obtain ⟨h1, h2⟩ := okPair h
              rw [← h2]
              dsimp only
              exact ⟨by omega, fun _ => by omega⟩
          · rw [if_neg hcm] at h
            rcases hx5 : Stream.readIdent s1 with ⟨nmo, s2⟩
            rw [hx5] at h
            have hi2 : s1.idx ≤ s2.idx := by
              have hq := readIdent_idx s1
              rw [hx5] at hq
              exact hq
            rcases nmo with _ | nm
            · dsimp only at h
              obtain ⟨h1, h2⟩ := okPair h
              rw [← h2]
              dsimp only
              exact ⟨by omega, fun _ => by omega⟩
            · dsimp only at h
              by_cases hdoc : toUpperBytes nm = doctypeBytes
              · rw [if_pos hdoc] at h
                rcases hx6 : Stream.readIdent (Stream.skipWs s2) with ⟨iopt, s4⟩
                rw [hx6] at h
                have hi4 : s2.idx ≤ s4.idx := by
                  have hq := readIdent_idx (Stream.skipWs s2)
                  rw [hx6] at hq
                  dsimp only at hq
                  have hw := skipWs_idx s2
                  omega
                rcases iopt with _ | i
                · dsimp only at h
                  simp only [Bool.false_eq_true, if_false] at h
                  obtain ⟨h1, h2⟩ := okPair h
                  rw [← h2]
                  dsimp only
                  exact ⟨by omega, fun _ => by omega⟩
                · dsimp only at h
                  by_cases h5 : (toUpperBytes i == htmlBytes) = true
                  · rw [if_pos h5] at h
                    rcases hx7 : Stream.expectSkip 62 (Stream.skipWs s4) with ⟨gopt, s6⟩
                    rw [hx7] at h
                    dsimp only at h
                    obtain ⟨h1, h2⟩ := okPair h
                    rw [← h2]
                    dsimp only
                    have hi6 : s4.idx ≤ s6.idx := by
                      have hq := expectSkip_idx 62 (Stream.skipWs s4)
                      rw [hx7] at hq
                      dsimp only at hq
                      have hw := skipWs_idx s4
                      omega
                    exact ⟨by omega, fun _ => by omega⟩
                  · rw [if_neg h5] at h
                    obtain ⟨h1, h2⟩ := okPair h
                    rw [← h2]
                    dsimp only
                    exact ⟨by omega, fun _ => by omega⟩
              · rw [if_neg hdoc] at h
                obtain ⟨h1, h2⟩ := okPair h
                rw [← h2]
                dsimp only
                exact ⟨by omega, fun _ => by omega⟩
    · -- parse_tag_rest
      intro name attrs start st r st' h
      unfold parse_tag_rest at h
      dsimp only at h
      rcases hx1 : Stream.expectSkipCond 47 st.stream with ⟨sc, s1⟩
      rw [hx1] at h
      have hi1 : st.stream.idx ≤ s1.idx := by
        have hq := expectSkipCond_idx 47 st.stream
        rw [hx1] at hq
        exact hq
      dsimp only at h
      rcases hx2 : Stream.expectSkip 62 (Stream.skipWs s1) with ⟨g, s3⟩
      have hi3 : s1.idx ≤ s3.idx := by
        have hq := expectSkip_idx 62 (Stream.skipWs s1)
        rw [hx2] at hq
        dsimp only at hq
        have hw := skipWs_idx s1
        omega
      cases sc
      · rw [if_neg bool_false_ne_true] at h
        rw [hx2] at h
        rcases g with _ | gv
        · dsimp only at h
          obtain ⟨h1, h2⟩ := okPair h
          rw [← h2]
          dsimp only
          omega
        · dsimp only at h
          by_cases hv : name ∈ voidTags
          · rw [if_pos hv] at h
            obtain ⟨h1, h2⟩ := okPair h
            rw [← h2]
            dsimp only
            omega
          · rw [if_neg hv] at h
            have hcm := ihC name attrs start [] { st with stream := s3 } r st' h
            dsimp only at hcm
            omega
      · rw [if_pos rfl] at h
        rw [hx2] at h
        rcases g with _ | gv
        · dsimp only at h
          obtain ⟨h1, h2⟩ := okPair h
          rw [← h2]
          dsimp only
          omega
        · dsimp only at h
          obtain ⟨h1, h2⟩ := okPair h
          rw [← h2]
          dsimp only
          omega
    · -- parse_children
      intro name attrs start children st r st' h
      unfold parse_children at h
      by_cases hE : st.stream.isEof = true
      · rw [if_pos hE] at h
        obtain ⟨h1, h2⟩ := okPair h
        rw [← h2]
      · rw [if_neg hE] at h
        dsimp only at h
        have hwi : st.stream.idx ≤ (Stream.skipWs st.stream).idx := skipWs_idx st.stream
        by_cases hsl : Stream.slice (Stream.skipWs st.stream) (Stream.skipWs st.stream).idx
            ((Stream.skipWs st.stream).idx + 2) = [60, 47]
        · rw [if_pos hsl] at h
          rcases hx2 : Stream.readIdent (Stream.advance 2 (Stream.skipWs st.stream))
              with ⟨io, s3⟩
          rw [hx2] at h
          have hi3 : (Stream.skipWs st.stream).idx ≤ s3.idx := by
            have hq := readIdent_idx (Stream.advance 2 (Stream.skipWs st.stream))
            rw [hx2] at hq
            simp [Stream.advance] at hq
            omega
          rcases io with _ | ident
          · dsimp only at h
            obtain ⟨h1, h2⟩ := okPair h
            rw [← h2]
            dsimp only
            omega
          · dsimp only at h
            by_cases hne2 : ident ≠ name
            · rw [if_pos hne2] at h
              obtain ⟨h1, h2⟩ := okPair h
              rw [← h2]
              dsimp only
              omega
            · rw [if_neg hne2] at h
              rcases hx3 : Stream.expectSkip 62 s3 with ⟨g, s4⟩
              rw [hx3] at h
              dsimp only at h
              obtain ⟨h1, h2⟩ := okPair h
              rw [← h2]
              dsimp only
              have hi4 : s3.idx ≤ s4.idx := by
                have hq := expectSkip_idx 62 s3
                rw [hx3] at hq
                exact hq
              omega
        · rw [if_neg hsl] at h
          rcases hx4 : parse_single f { st with stream := Stream.skipWs st.stream }
              with _ | _ | ⟨no, st1⟩
          · rw [hx4] at h; simp at h
          · rw [hx4] at h; simp at h
          · rw [hx4] at h
            obtain ⟨hSm, _, _⟩ := ihS _ no st1 hx4
            dsimp only at hSm
            rcases no with _ | n
            · dsimp only at h
              obtain ⟨h1, h2⟩ := okPair h
              rw [← h2]
              omega
            · dsimp only at h
              have hcm := ihC name attrs start (children ++ [n]) st1 r st' h
              omega

theorem parse_total : ∀ f : Nat,
    (∀ st, 4 * (st.stream.data.length - st.stream.idx) + 2 ≤ f →
      parse_single f st ≠ .fuelOut)
    ∧ (∀ st, st.stream.idx < st.stream.data.length →
      4 * (st.stream.data.length - st.stream.idx) + 1 ≤ f →
      parse_tag f true st ≠ .fuelOut)
    ∧ (∀ name attrs start st, 4 * (st.stream.data.length - st.stream.idx) + 4 ≤ f →
      parse_tag_rest f name attrs start st ≠ .fuelOut)
    ∧ (∀ name attrs start children st,
      4 * (st.stream.data.length - st.stream.idx) + 7 ≤ f →
      parse_children f name attrs start children st ≠ .fuelOut) := by
  intro f
  induction f with
  | zero =>
    refine ⟨?_, ?_, ?_, ?_⟩
    · intro st hf; exact absurd hf (by omega)
    · intro st hlt hf; exact absurd hf (by omega)
    · intro name attrs start st hf; exact absurd hf (by omega)
    · intro name attrs start children st hf; exact absurd hf (by omega)
  | succ f ih =>
    obtain ⟨ihS, ihT, ihR, ihC⟩ := ih
    refine ⟨?_, ?_, ?_, ?_⟩
    · -- parse_single
      intro st hf
      unfold parse_single
      dsimp only
      have hwd := skipWs_data st.stream
      have hwi := skipWs_idx st.stream
      rcases hg : (Stream.skipWs st.stream).data.get? (Stream.skipWs st.stream).idx with _ | ch
      · simp
      · dsimp only
        by_cases hch : ch = 60
        · rw [if_pos hch]
          have hblt : (Stream.skipWs st.stream).idx < st.stream.data.length := by
            have h0 := get_some_lt hg
            rw [hwd] at h0
            exact h0
          rcases hT : parse_tag f true { st with stream := Stream.skipWs st.stream }
              with _ | _ | ⟨nodeOpt, st1⟩
          · refine absurd hT (ihT _ ?_ ?_)
            · dsimp only
              rw [hwd]
              exact hblt
            · dsimp only
              rw [hwd]
              omega
          · simp
          · rcases nodeOpt with _ | node
            · simp
            · rcases node with ⟨nm, na, nc, nr⟩ | nb | nb <;> simp
        · rw [if_neg hch]
          rcases hR : Stream.readTo [60] (Stream.skipWs st.stream) with ⟨txt, s2⟩
          simp
    · -- parse_tag
      intro st hlt hf
      unfold parse_tag
      dsimp only
      rw [if_pos rfl]
      rcases hnx : Stream.next st.stream with ⟨nopt, s0⟩
      rcases nopt with _ | c0
      · simp
      · obtain ⟨hi0, hd0, hg0⟩ := next_some hnx
        dsimp only
        rcases hx1 : Stream.expectSkipCond 33 s0 with ⟨md, s1⟩
        have hd1 : s1.data = st.stream.data := by
          have hq := expectSkipCond_data 33 s0
          rw [hx1] at hq
          dsimp only at hq
          rw [hq, hd0]
        have hi1 : s0.idx ≤ s1.idx := by
          have hq := expectSkipCond_idx 33 s0
          rw [hx1] at hq
          dsimp only at hq
          exact hq
        dsimp only
        cases md
        · rw [if_neg bool_false_ne_true]
          rcases hx2 : Stream.readIdent s1 with ⟨nmo, s2⟩
          rcases nmo with _ | name
          · simp
          · dsimp only
            rcases hx3 : parseAttributes s2 with _ | ⟨attrs, s3⟩
            · simp
            · dsimp only
              have hd2 : s2.data = st.stream.data := by
                have hq := readIdent_data s1
                rw [hx2] at hq
                dsimp only at hq
                rw [hq, hd1]
              have hi2 : s1.idx ≤ s2.idx := by
                have hq := readIdent_idx s1
                rw [hx2] at hq
                dsimp only at hq
                exact hq
              have hd3 : s3.data = st.stream.data := by
                rw [(parseAttributesAuxN_facts _ _ _ _ _ hx3).1, hd2]
              have hi3 : s2.idx ≤ s3.idx := (parseAttributesAuxN_facts _ _ _ _ _ hx3).2
              exact ihR name attrs st.stream.idx { st with stream := s3 }
                (by dsimp only; rw [hd3]; omega)
        · rw [if_pos rfl]
          by_cases hcm : Stream.slice s1 s1.idx (s1.idx + 2) = [45, 45]
          · rw [if_pos hcm]
            rcases hx4 : Stream.skipComment (Stream.advance 2 s1) with ⟨copt, s3⟩
            rcases copt with _ | c <;> simp
          · rw [if_neg hcm]
            rcases hx5 : Stream.readIdent s1 with ⟨nmo, s2⟩
            rcases nmo with _ | nm
            · simp
            · dsimp only
              by_cases hdoc : toUpperBytes nm = doctypeBytes
              · rw [if_pos hdoc]
                rcases hx6 : Stream.readIdent (Stream.skipWs s2) with ⟨iopt, s4⟩
                rcases iopt with _ | i
                · simp
                · dsimp only
                  by_cases h5 : (toUpperBytes i == htmlBytes) = true
                  · rw [if_pos h5]
                    rcases hx7 : Stream.expectSkip 62 (Stream.skipWs s4) with ⟨gopt, s6⟩
                    simp
                  · rw [if_neg h5]
                    simp
              · rw [if_neg hdoc]
                simp
    · -- parse_tag_rest
      intro name attrs start st hf
      unfold parse_tag_rest
      dsimp only
      rcases hx1 : Stream.expectSkipCond 47 st.stream with ⟨sc, s1⟩
      have hd1 : s1.data = st.stream.data := by
        have hq := expectSkipCond_data 47 st.stream
        rw [hx1] at hq
        dsimp only at hq
        exact hq
      have hi1 : st.stream.idx ≤ s1.idx := by
        have hq := expectSkipCond_idx 47 st.stream
        rw [hx1] at hq
        dsimp only at hq
        exact hq
      dsimp only
      rcases hx2 : Stream.expectSkip 62 (Stream.skipWs s1) with ⟨g, s3⟩
      cases sc
      · rw [if_neg bool_false_ne_true]
        rcases g with _ | gv
        · simp
        · dsimp only
          by_cases hv : name ∈ voidTags
          · rw [if_pos hv]
            simp
          · rw [if_neg hv]
            obtain ⟨hi3, hd3, hg3, _⟩ := expectSkip_some 62 (Stream.skipWs s1) gv s3 hx2
            have hwlt : (Stream.skipWs s1).idx < st.stream.data.length := by
              have h0 := get_some_lt hg3
              rw [skipWs_data, hd1] at h0
              exact h0
            have hwi1 : s1.idx ≤ (Stream.skipWs s1).idx := skipWs_idx s1
            have hd3s : s3.data = st.stream.data := by
              rw [hd3, skipWs_data, hd1]
            exact ihC name attrs start [] { st with stream := s3 }
              (by dsimp only; rw [hd3s]; omega)
      · rw [if_pos rfl]
        rcases g with _ | gv
        · simp
        · dsimp only
          simp
    · -- parse_children
      intro name attrs start children st hf
      unfold parse_children
      by_cases hE : st.stream.isEof = true
      · rw [if_pos hE]
        simp
      · rw [if_neg hE]
        dsimp only
        have hwi := skipWs_idx st.stream
        have hwd := skipWs_data st.stream
        have hElt : st.stream.idx < st.stream.data.length := by
          simp [Stream.isEof] at hE
          omega
        by_cases hsl : Stream.slice (Stream.skipWs st.stream) (Stream.skipWs st.stream).idx
            ((Stream.skipWs st.stream).idx + 2) = [60, 47]
        · rw [if_pos hsl]
          rcases hx2 : Stream.readIdent (Stream.advance 2 (Stream.skipWs st.stream))
              with ⟨io, s3⟩
          rcases io with _ | ident
          · simp
          · dsimp only
            by_cases hne2 : ident ≠ name
            · rw [if_pos hne2]
              simp
            · rw [if_neg hne2]
              rcases hx3 : Stream.expectSkip 62 s3 with ⟨g, s4⟩
              simp
        · rw [if_neg hsl]
          rcases hT : parse_single f { st with stream := Stream.skipWs st.stream }
              with _ | _ | ⟨no, st1⟩
          · refine absurd hT (ihS _ ?_)
            dsimp only
            rw [hwd]
            omega
          · simp
          · rcases no with _ | n
            · simp
            · dsimp only
              have hstrict : (Stream.skipWs st.stream).idx < st1.stream.idx := by
                have hp := ((parse_progress f).1 _ _ _ hT).2.2 n rfl
                dsimp only at hp
                exact hp
              have hd1 : st1.stream.data = st.stream.data := by
                rw [((parse_preserves f).1 _ _ _ hT).1]
                exact hwd
              exact ihC name attrs start (children ++ [n]) st1
                (by rw [hd1]; omega)

theorem parse_loop_total : ∀ (f : Nat) (st : PState),
    4 * (st.stream.data.length - st.stream.idx) + 3 ≤ f →
    parse_loop f st ≠ .fuelOut := by
  intro f
  induction f with
  | zero => intro st hf; exact absurd hf (by omega)
  | succ f ih =>
    intro st hf
    unfold parse_loop
    by_cases hE : st.stream.isEof = true
    · rw [if_pos hE]
      simp
    · rw [if_neg hE]
      have hElt : st.stream.idx < st.stream.data.length := by
        simp [Stream.isEof] at hE
        omega
      rcases hT : parse_single f st with _ | _ | ⟨no, st1⟩
      · exact absurd hT ((parse_total f).1 st (by omega))
      · simp
      · have hd1 : st1.stream.data = st.stream.data := ((parse_preserves f).1 _ _ _ hT).1
        have hstrict : st.stream.idx < st1.stream.idx :=
          ((parse_progress f).1 _ _ _ hT).2.1 hElt
        rcases no with _ | n
        · dsimp only
          exact ih st1 (by rw [hd1]; omega)
        · dsimp only
          exact ih { st1 with ast := st1.ast ++ [n] } (by dsimp only; rw [hd1]; omega)

/-- Claim C9: parsing terminates on every finite input — at the canonical
fuel, which is linear in the input length, the driver loop never exhausts
its fuel, because every iteration of the node loop and of the attribute
scan advances the cursor by at least one byte. -/
theorem c9_termination (input : Bytes) : parseDoc input ≠ .fuelOut := by
  unfold parseDoc
  exact parse_loop_total (parseFuel input) (PState.init input)
    (by simp [parseFuel, PState.init])

end TL
